import Mathlib

/-!
Verification of the GraphDB in-memory collection engine
(`packages/core/src/collection.ts`, `utils/where-checker.ts`,
`utils/sort-documents.ts`).

The JavaScript runtime structures are embedded shallowly:

* `Map` becomes an association list with JavaScript `Map` semantics
  (`mget`, `mset`, `mdelete`): `set` replaces the entry in place when the
  key is present and appends otherwise, `delete` removes the entry (keys
  are unique by construction, so removing every occurrence coincides with
  removing the one occurrence), and iteration order is insertion order.
* `Set` becomes a duplicate-free list (`saddE`, `sdelete`): `add` appends
  when absent, preserving insertion order.
* Document field values are the JavaScript primitives the engine stores
  and compares (`Value`); `===` is structural equality on them.
* Regular expressions are modelled as opaque string predicates.
-/

namespace GraphDB

/-- JavaScript primitive values as stored in document fields and compared
with `===` by the engine. -/
inductive Value where
  | str (s : String)
  | num (n : Int)
  | bool (b : Bool)
  | null
  | undef
deriving DecidableEq

/-- `String(value)` conversion used by the regex branches of the checker. -/
def jsToString : Value → String
  | .str s => s
  | .num n => toString n
  | .bool b => if b then "true" else "false"
  | .null => "null"
  | .undef => "undefined"

/- ─── JavaScript `Map` as an ordered association list ─── -/

/-- First value bound to `k`, like `Map.prototype.get`. -/
def mget {κ ν : Type} [DecidableEq κ] : List (κ × ν) → κ → Option ν
  | [], _ => none
  | (k, v) :: rest, k0 => if k = k0 then some v else mget rest k0

/-- `Map.prototype.set`: replace in place when present, append otherwise. -/
def mset {κ ν : Type} [DecidableEq κ] : List (κ × ν) → κ → ν → List (κ × ν)
  | [], k0, v0 => [(k0, v0)]
  | (k, v) :: rest, k0, v0 =>
      if k = k0 then (k0, v0) :: rest else (k, v) :: mset rest k0 v0

/-- `Map.prototype.delete`: remove the entry bound to `k`. -/
def mdelete {κ ν : Type} [DecidableEq κ] : List (κ × ν) → κ → List (κ × ν)
  | [], _ => []
  | (k, v) :: rest, k0 => if k = k0 then mdelete rest k0 else (k, v) :: mdelete rest k0

/-- Keys in iteration order. -/
def mkeys {κ ν : Type} (m : List (κ × ν)) : List κ := m.map Prod.fst

/-- Values in iteration order (`Map.prototype.values`). -/
def mvalues {κ ν : Type} (m : List (κ × ν)) : List ν := m.map Prod.snd

/- ─── JavaScript `Set` as an ordered duplicate-free list ─── -/

/-- `Set.prototype.add`: append when absent. -/
def saddE {α : Type} [DecidableEq α] (s : List α) (x : α) : List α :=
  if x ∈ s then s else s ++ [x]

/-- `Set.prototype.delete`. -/
def sdelete {α : Type} [DecidableEq α] : List α → α → List α
  | [], _ => []
  | y :: rest, x => if y = x then sdelete rest x else y :: sdelete rest x

/- ─── Documents ─── -/

/-- A stored document: the engine's `Doc<T>` with its `_id` plus the payload
fields (including `createdAt` / `updatedAt`, which the engine stores as
ordinary numeric fields). -/
structure Doc where
  _id : String
  fields : List (String × Value)
deriving DecidableEq

/-- Property access `doc[p]`: the `_id` property is the identifier, any other
property is looked up in the payload, and a missing property reads as
`undefined`. -/
def getField (d : Doc) (p : String) : Value :=
  if p = "_id" then .str d._id else (mget d.fields p).getD Value.undef

/- ─── Where-clauses (`utils/where-checker.ts`) ─── -/

/-- The value sitting under one operator key in an operator object.
`undef` is an explicitly-undefined operand, `regex` an opaque `RegExp`
test, `arr` a JavaScript array of primitive values. -/
inductive Operand where
  | undef
  | val (v : Value)
  | regex (r : String → Bool)
  | arr (l : List Value)

/-- One field's condition in a where-clause: a top-level `RegExp`, a literal
primitive (strict equality), or an operator object given by its
`Object.entries` list. -/
inductive Cond where
  | regex (r : String → Bool)
  | lit (v : Value)
  | ops (entries : List (String × Operand))

/-- A where-clause: `Object.entries` of the caller-supplied object. -/
abbrev Where := List (String × Cond)

/-- `pat` is a prefix of `s` (on character lists). -/
def chPre : List Char → List Char → Bool
  | [], _ => true
  | _ :: _, [] => false
  | a :: as, b :: bs => a == b && chPre as bs

/-- `pat` occurs contiguously in `s` (on character lists). -/
def chSub : List Char → List Char → Bool
  | pat, [] => pat.isEmpty
  | pat, b :: bs => chPre pat (b :: bs) || chSub pat bs

/-- `value.includes(operand)` for strings (substring containment). -/
def strIncludes (value operand : String) : Bool :=
  chSub operand.toList value.toList

/-- One operator entry of an operator object, exactly following the branch
ladder of `whereChecker`: `undefined` operands are skipped; `match` tests a
regex; `in` tests array membership; `eq`/`notEq` use `===`; the numeric
comparisons apply only when operand and value are both numbers and the string
operators only when both are strings — any other operator (including an
unrecognized name) with a number/number or string/string pairing falls to the
end of its typed block and is skipped, while the remaining type combinations
fall through every branch and fail the whole field condition. Returns `true`
when the entry lets the loop continue, `false` when `whereChecker` returns
`false` on it. -/
def opEntry (value : Value) (op : String) (operand : Operand) : Bool :=
  match operand with
  | .undef => true
  | .regex r =>
      if op = "match" then r (jsToString value)
      else if op = "eq" then false
      else if op = "notEq" then true
      else false
  | .arr l =>
      if op = "in" then decide (value ∈ l)
      else if op = "eq" then false
      else if op = "notEq" then true
      else false
  | .val w =>
      if op = "eq" then decide (value = w)
      else if op = "notEq" then !(decide (value = w))
      else
        match value, w with
        | .num x, .num y =>
            if op = "gt" then decide (x > y)
            else if op = "gte" then decide (x ≥ y)
            else if op = "lt" then decide (x < y)
            else if op = "lte" then decide (x ≤ y)
            else true
        | .str s, .str t =>
            if op = "includes" then strIncludes s t
            else if op = "startsWith" then s.startsWith t
            else if op = "endsWith" then s.endsWith t
            else true
        | _, _ => false

/-- The `for (const [op, operand] of Object.entries(where))` loop body:
all entries must pass. -/
def opsCheck (value : Value) : List (String × Operand) → Bool
  | [] => true
  | (op, operand) :: rest => opEntry value op operand && opsCheck value rest

/-- `whereChecker(property, clause, doc)` from `utils/where-checker.ts`. -/
def whereChecker (property : String) (clause : Cond) (d : Doc) : Bool :=
  let value := getField d property
  match clause with
  | .regex r => r (jsToString value)
  | .lit v => decide (value = v)
  | .ops entries => opsCheck value entries

/-- A document passes a where-clause when every field condition passes
(the engine short-circuits on the first failing field, which does not
change the result). -/
def matchesWhere (w : Where) (d : Doc) : Bool :=
  w.all (fun p => whereChecker p.1 p.2 d)

/- ─── Sort engine (`utils/sort-documents.ts`) ─── -/

/-- `String.prototype.localeCompare` for the default locale is a total order
on strings; it is modelled by the standard lexicographic order. -/
def localeCompare (a b : String) : Int :=
  if a < b then -1 else if b < a then 1 else 0

/-- The per-field comparison of `sortDocuments`: numbers by subtraction,
strings by locale comparison, any other combination treated as equal. -/
def fieldCmp (key : String) (a b : Doc) : Int :=
  match getField a key, getField b key with
  | .num x, .num y => x - y
  | .str s, .str t => localeCompare s t
  | _, _ => 0

/-- The comparator closure of `sortDocuments`: first key with a nonzero
comparison decides, negated for a `DESC` direction. -/
def docCompare (keys : List (String × String)) (a b : Doc) : Int :=
  match keys with
  | [] => 0
  | (key, dir) :: rest =>
      let c := fieldCmp key a b
      if c ≠ 0 then (if dir = "ASC" then c else -c) else docCompare rest a b

/-- Stable insertion used to model the (specified-stable) `Array.prototype.sort`. -/
def insertOrd {α : Type} (le : α → α → Bool) (x : α) : List α → List α
  | [] => [x]
  | y :: ys => if le x y then x :: y :: ys else y :: insertOrd le x ys

/-- Stable insertion sort: for a consistent comparator this computes the
unique stable-sorted permutation, which is what the ECMAScript
specification guarantees for `Array.prototype.sort`. -/
def insSort {α : Type} (le : α → α → Bool) : List α → List α
  | [] => []
  | x :: xs => insertOrd le x (insSort le xs)

/-- `sortDocuments(docs, orderBy)` from `utils/sort-documents.ts`: empty
`orderBy` returns the input; otherwise a stable sort by the hierarchical
comparator. -/
def sortDocuments (docs : List Doc) (orderBy : List (String × String)) : List Doc :=
  if orderBy.isEmpty then docs
  else insSort (fun a b => docCompare orderBy a b ≤ 0) docs

/- ─── Collection state (`createCollection`) ─── -/

/-- One index: a map from field value to the bucket of document identifiers
currently holding that value. -/
abbrev Bucket := List (Value × List String)

/-- The collection state owned by the closure of `createCollection`:
the configured indexed fields, the document store, and the indexes
(`field -> value -> Set<docId>`). Listener registries are not part of the
state-transition model; emitted events are returned as traces instead. -/
structure Col where
  indexed : List String
  documents : List (String × Doc)
  indexes : List (String × Bucket)
deriving DecidableEq

/-- The freshly created collection: empty store, one empty bucket map per
configured indexed field. -/
def initCol (indexedFields : List String) : Col :=
  ⟨indexedFields, [], indexedFields.map (fun f => (f, ([] : Bucket)))⟩

/-- Insert `id` into the bucket for `v`, creating the bucket when absent
(the `indexAdd` body for one field). -/
def bucketAddAt (b : Bucket) (v : Value) (id : String) : Bucket :=
  mset b v (saddE ((mget b v).getD []) id)

/-- Delete `id` from the bucket for `v` when that bucket exists, dropping the
bucket when it becomes empty (the `indexRemove` body for one field). -/
def bucketRemoveAt (b : Bucket) (v : Value) (id : String) : Bucket :=
  match mget b v with
  | none => b
  | some s =>
      let s2 := sdelete s id
      if s2.isEmpty then mdelete b v else mset b v s2

/-- Apply a per-field bucket transformation to every configured indexed
field. Shared shape of `indexAdd` / `indexRemove` / `indexUpdate`; the
source reads the field's bucket map (which the collection always
initializes) and mutates it in place. -/
def applyIdx (fs : List String) (F : String → Bucket → Bucket)
    (idx : List (String × Bucket)) : List (String × Bucket) :=
  fs.foldl (fun ix f => mset ix f (F f ((mget ix f).getD []))) idx

/-- `indexAdd(doc)`. -/
def indexAddDoc (fs : List String) (idx : List (String × Bucket)) (d : Doc) :
    List (String × Bucket) :=
  applyIdx fs (fun f b => bucketAddAt b (getField d f) d._id) idx

/-- `indexRemove(doc)`. -/
def indexRemoveDoc (fs : List String) (idx : List (String × Bucket)) (d : Doc) :
    List (String × Bucket) :=
  applyIdx fs (fun f b => bucketRemoveAt b (getField d f) d._id) idx

/-- `indexUpdate(before, after)`: per field, skip when the value did not
change, otherwise remove from the old bucket and add to the new one. -/
def indexUpdateDoc (fs : List String) (idx : List (String × Bucket))
    (before after : Doc) : List (String × Bucket) :=
  applyIdx fs (fun f b =>
    if getField before f = getField after f then b
    else bucketAddAt (bucketRemoveAt b (getField before f) before._id)
      (getField after f) after._id) idx

/-- `indexRebuild()`: clear every bucket map, then re-add every document in
store order. -/
def indexRebuild (c : Col) : List (String × Bucket) :=
  (mvalues c.documents).foldl (fun ix d => indexAddDoc c.indexed ix d)
    (c.indexes.map (fun p => (p.1, ([] : Bucket))))

/- ─── Query planner ─── -/

/-- The candidate subset derived from the index for one where-clause entry:
`none` when the entry contributes no candidate set (field not indexed,
regex clause, or an operator object with neither a defined `eq` nor an
array `in`). -/
def candidateFor (c : Col) (entry : String × Cond) : Option (List String) :=
  match mget c.indexes entry.1 with
  | none => none
  | some bucket =>
      match entry.2 with
      | .regex _ => none
      | .lit v => some ((mget bucket v).getD [])
      | .ops ops =>
          match mget ops "eq" with
          | some (.val v) => some ((mget bucket v).getD [])
          | some .undef =>
              -- `obj.eq !== undefined` fails; fall through to the `in` check
              match mget ops "in" with
              | some (.arr l) =>
                  some (l.foldl (fun u v =>
                    ((mget bucket v).getD []).foldl (fun u2 id => saddE u2 id) u) [])
              | _ => none
          | some _ =>
              -- a defined non-primitive `eq` operand is looked up anyway and
              -- matches no stored primitive key
              some []
          | none =>
              match mget ops "in" with
              | some (.arr l) =>
                  some (l.foldl (fun u v =>
                    ((mget bucket v).getD []).foldl (fun u2 id => saddE u2 id) u) [])
              | _ => none

/-- Intersect the candidate sets, first one as the seed (the source walks the
sorted list pairwise; its early exit on an empty intersection does not
change the result). -/
def intersectList : List (List String) → List String
  | [] => []
  | s :: rest => rest.foldl (fun r next => r.filter (fun id => decide (id ∈ next))) s

/-- `getCandidateIds(where)`: `null` when no index can help, otherwise the
intersection of the per-entry candidate sets, processed smallest first
(a stable sort by size, as `Array.prototype.sort` with the size
comparator produces). -/
def getCandidateIds (c : Col) (w : Where) : Option (List String) :=
  if c.indexed.isEmpty then none
  else
    let sets := w.filterMap (candidateFor c)
    if sets.isEmpty then none
    else some (intersectList (insSort (fun a b => a.length ≤ b.length) sets))

/-- `read(id)`: the stored document, `null` when absent. The source returns
the live stored instance, not a copy (see `RefCol` below for the aliasing
consequences). -/
def read (c : Col) (id : String) : Option Doc :=
  mget c.documents id

/-- The full-scan evaluation of a where-clause: every stored document, in
store insertion order, that passes every field condition. -/
def fullScan (c : Col) (w : Where) : List Doc :=
  (mvalues c.documents).filter (fun d => matchesWhere w d)

/-- Query options: `orderBy`, `skip`, `limit`. -/
structure QueryOptions where
  orderBy : Option (List (String × String)) := none
  skip : Option Int := none
  limit : Option Int := none

/-- The options pipeline of `query`: sort, then skip, then limit. A positive
`skip` not below the result length returns `[]` early, which the final
`limit` slice maps to `[]` as well. -/
def applyOptions (results : List Doc) (o : QueryOptions) : List Doc :=
  let r1 := match o.orderBy with
    | some ob => sortDocuments results ob
    | none => results
  let r2 := match o.skip with
    | some s =>
        if s > 0 then (if s ≥ (r1.length : Int) then [] else r1.drop s.toNat) else r1
    | none => r1
  match o.limit with
  | some l => if l ≥ 0 then r2.take l.toNat else r2
  | none => r2

/-- `query(where, options?)`. An empty where-clause short-circuits to all
documents; otherwise the planner either walks the index-derived candidate
ids (skipping ids no longer stored, re-checking the full clause) or falls
back to a full scan. -/
def query (c : Col) (w : Where) (opts : Option QueryOptions) : List Doc :=
  let results :=
    if w.isEmpty then mvalues c.documents
    else
      match getCandidateIds c w with
      | some cand =>
          cand.filterMap (fun id =>
            match mget c.documents id with
            | none => none
            | some d => if matchesWhere w d then some d else none)
      | none => (mvalues c.documents).filter (fun d => matchesWhere w d)
  match opts with
  | none => results
  | some o => applyOptions results o

/-- `findOne(where)`: first stored document for an empty clause, otherwise the
first match in store order (the source scans the store directly, never the
index). -/
def findOne (c : Col) (w : Where) : Option Doc :=
  if w.isEmpty then (mvalues c.documents).head?
  else (mvalues c.documents).find? (fun d => matchesWhere w d)

/-- `count(where?)`. -/
def count (c : Col) (w : Option Where) : Nat :=
  match w with
  | none => c.documents.length
  | some ww => if ww.isEmpty then c.documents.length else (query c ww none).length

/-- `exists(id)`. -/
def existsDoc (c : Col) (id : String) : Bool :=
  (mget c.documents id).isSome

/-- `clear()`: drop all documents and clear every bucket map. -/
def clearCol (c : Col) : Col :=
  ⟨c.indexed, [], c.indexes.map (fun p => (p.1, ([] : Bucket)))⟩

/- ─── Errors, events, synchronizer outcomes ─── -/

/-- Errors surfaced by the engine. `tagged op` is the stable
operation-tagged synchronization error (`"Document synchronization wasn't
possible."` with the `[UPDATE SYNC]` / `[REMOVE SYNC]` prefixes);
`syncFalse` is the synthesized `new Error('Sync returned false')`;
`external n` is an error thrown or rejected by the synchronizer itself
(with message distinct from the tagged ones); `validation` carries a
validation message thrown before any mutation. -/
inductive Err where
  | syncFalse
  | tagged (op : String)
  | external (n : Nat)
  | validation (msg : String)
deriving DecidableEq

/-- Collection-level events, as `emit` publishes them. -/
inductive Event where
  | createE (doc : Doc)
  | updateE (before after : Doc) (patch : List (String × Value))
  | removeE (doc : Doc)
  | populateE (cnt : Nat)
  | syncErrorE (op : String) (error : Err) (docId : String)
deriving DecidableEq

/-- Discriminator for `syncError` events. -/
def isSyncErrorEvent : Event → Bool
  | .syncErrorE _ _ _ => true
  | _ => false

/-- Outcome of one configured synchronizer call: resolve truthy, resolve
falsy, or throw/reject with external error `n`. -/
inductive SyncRes where
  | ok
  | falsy
  | raise (n : Nat)
deriving DecidableEq

/-- An execution trace: each emitted event paired with the collection state
at the moment of emission. -/
abbrev Trace := List (Event × Col)

/-- Object spread `{...base, ...patch}`: later keys override in place,
fresh keys append, matching JavaScript property order. -/
def spreadFields (base patch : List (String × Value)) : List (String × Value) :=
  patch.foldl (fun acc p => mset acc p.1 p.2) base

/- ─── Write operations (optimistic apply, confirm or revert) ─── -/

/-- `create(input)` with generated identifier `id` and timestamp `now`.
The synchronizer argument is `none` when no create synchronizer is
configured, otherwise the outcome of awaiting it. On a falsy resolution the
code reverts, emits a generic-cause `syncError`, and throws the tagged
error — which its own `catch` then intercepts: the guard
`documents.has(_id)` is `false` so nothing reverts twice, but a second
`syncError` carrying the tagged error is emitted before rethrowing. On a
thrown/rejected synchronizer the `catch` sees the document still present,
reverts, emits one `syncError` with the original cause, and throws the
tagged error (the original message differs from the tagged one). -/
def createOp (c : Col) (input : List (String × Value)) (id : String) (now : Int)
    (sync : Option SyncRes) : Col × Trace × Except Err String :=
  let doc : Doc := ⟨id, mset (mset input "createdAt" (.num now)) "updatedAt" (.num now)⟩
  let c1 : Col := ⟨c.indexed, mset c.documents id doc, indexAddDoc c.indexed c.indexes doc⟩
  match sync with
  | none => (c1, [(.createE doc, c1)], .ok id)
  | some .ok => (c1, [(.createE doc, c1)], .ok id)
  | some .falsy =>
      let c2 : Col := ⟨c.indexed, mdelete c1.documents id,
        indexRemoveDoc c.indexed c1.indexes doc⟩
      (c2, [(.syncErrorE "create" .syncFalse id, c2),
            (.syncErrorE "create" (.tagged "create") id, c2)], .error (.tagged "create"))
  | some (.raise n) =>
      let c2 : Col := ⟨c.indexed, mdelete c1.documents id,
        indexRemoveDoc c.indexed c1.indexes doc⟩
      (c2, [(.syncErrorE "create" (.external n) id, c2)], .error (.tagged "create"))

/-- `update(id, patch)` with timestamp `now`. Validation failures (empty id,
unknown id) throw before any mutation. The falsy revert and its double
`syncError` emission mirror `createOp`; the reference check
`documents.get(id) === after` is false after the falsy-path revert (the slot
holds `before` again, a distinct object) and true on the throw path (the
slot still holds the very `after` object). -/
def updateOp (c : Col) (id : String) (patch : List (String × Value)) (now : Int)
    (sync : Option SyncRes) : Col × Trace × Except Err Doc :=
  if id = "" then
    (c, [], .error (.validation
      "You must provide the GraphDocument ID that you would like to update."))
  else
    match mget c.documents id with
    | none => (c, [], .error (.validation s!"No document to update found with ID: {id}"))
    | some before =>
        let after : Doc :=
          ⟨before._id, mset (spreadFields before.fields patch) "updatedAt" (.num now)⟩
        let c1 : Col := ⟨c.indexed, mset c.documents id after,
          indexUpdateDoc c.indexed c.indexes before after⟩
        match sync with
        | none => (c1, [(.updateE before after patch, c1)], .ok after)
        | some .ok => (c1, [(.updateE before after patch, c1)], .ok after)
        | some .falsy =>
            let c2 : Col := ⟨c.indexed, mset c1.documents id before,
              indexUpdateDoc c.indexed c1.indexes after before⟩
            (c2, [(.syncErrorE "update" .syncFalse id, c2),
                  (.syncErrorE "update" (.tagged "update") id, c2)],
              .error (.tagged "update"))
        | some (.raise n) =>
            let c2 : Col := ⟨c.indexed, mset c1.documents id before,
              indexUpdateDoc c.indexed c1.indexes after before⟩
            (c2, [(.syncErrorE "update" (.external n) id, c2)], .error (.tagged "update"))

/-- `remove(id)` result record (the source spells the field `acknowledge`). -/
structure RemoveResult where
  removedId : String
  acknowledge : Bool
deriving DecidableEq

/-- `remove(id)`. Same protocol shape as `updateOp`; the revert re-inserts
the removed document, which appends it at the end of the store's insertion
order. -/
def removeOp (c : Col) (id : String) (sync : Option SyncRes) :
    Col × Trace × Except Err RemoveResult :=
  if id = "" then
    (c, [], .error (.validation
      "You must provide the GraphDocument ID that you would like to remove."))
  else
    match mget c.documents id with
    | none => (c, [], .error (.validation s!"No document to remove found with ID: {id}"))
    | some doc =>
        let c1 : Col := ⟨c.indexed, mdelete c.documents id,
          indexRemoveDoc c.indexed c.indexes doc⟩
        match sync with
        | none => (c1, [(.removeE doc, c1)], .ok ⟨id, true⟩)
        | some .ok => (c1, [(.removeE doc, c1)], .ok ⟨id, true⟩)
        | some .falsy =>
            let c2 : Col := ⟨c.indexed, mset c1.documents id doc,
              indexAddDoc c.indexed c1.indexes doc⟩
            (c2, [(.syncErrorE "remove" .syncFalse id, c2),
                  (.syncErrorE "remove" (.tagged "remove") id, c2)],
              .error (.tagged "remove"))
        | some (.raise n) =>
            let c2 : Col := ⟨c.indexed, mset c1.documents id doc,
              indexAddDoc c.indexed c1.indexes doc⟩
            (c2, [(.syncErrorE "remove" (.external n) id, c2)], .error (.tagged "remove"))

/-- The `for (const doc of docs)` loop of `populate`: each document is
validated just before being stored, so documents preceding an invalid one
are already in the store when the loop throws. -/
def populateLoop (m : List (String × Doc)) : List Doc → List (String × Doc) × Bool
  | [] => (m, true)
  | d :: ds => if d._id = "" then (m, false) else populateLoop (mset m d._id d) ds

/-- `populate(docs)`: store every document keyed by its pre-assigned
identifier (last one wins on duplicates), rebuild the indexes, emit one
`populate` event. A document whose `_id` is missing makes the loop throw
mid-way: already-stored documents stay, the index rebuild never runs, and
no event is emitted. -/
def populateOp (c : Col) (docs : List Doc) : Col × Trace × Except Err Unit :=
  let r := populateLoop c.documents docs
  if r.2 then
    let c1 : Col := ⟨c.indexed, r.1, indexRebuild ⟨c.indexed, r.1, c.indexes⟩⟩
    (c1, [(.populateE docs.length, c1)], .ok ())
  else
    (⟨c.indexed, r.1, c.indexes⟩, [],
      .error (.validation "Every document must have an _id for populate."))

/- ─── Uniform view of the three synchronized writes ─── -/

/-- A single-document write request. -/
inductive WriteOp where
  | createW (input : List (String × Value)) (id : String) (now : Int)
  | updateW (id : String) (patch : List (String × Value)) (now : Int)
  | removeW (id : String)

/-- Result of a write, with the operation-specific payload. -/
inductive WriteRes where
  | createdId (id : String)
  | updatedDoc (d : Doc)
  | removedAck (r : RemoveResult)
deriving DecidableEq

/-- Run one write against the collection with the given synchronizer
outcome. -/
def runWrite (c : Col) (op : WriteOp) (sync : Option SyncRes) :
    Col × Trace × Except Err WriteRes :=
  match op with
  | .createW input id now =>
      let r := createOp c input id now sync
      (r.1, r.2.1, r.2.2.map .createdId)
  | .updateW id patch now =>
      let r := updateOp c id patch now sync
      (r.1, r.2.1, r.2.2.map .updatedDoc)
  | .removeW id =>
      let r := removeOp c id sync
      (r.1, r.2.1, r.2.2.map .removedAck)

/-- The event name carried by a write's `syncError` emissions. -/
def opName : WriteOp → String
  | .createW _ _ _ => "create"
  | .updateW _ _ _ => "update"
  | .removeW _ => "remove"

/-- The identifier a write's `syncError` events carry. -/
def opId : WriteOp → String
  | .createW _ id _ => id
  | .updateW id _ _ => id
  | .removeW id => id

/-- Precondition under which a write reaches its synchronizer: a fresh
generated identifier for `create` (the UUID generator never collides with a
stored id), a present non-empty target for `update` / `remove`. -/
def writePre (c : Col) : WriteOp → Prop
  | .createW _ id _ => mget c.documents id = none
  | .updateW id _ _ => id ≠ "" ∧ (mget c.documents id).isSome
  | .removeW id => id ≠ "" ∧ (mget c.documents id).isSome

/- ─── Reference-cell model of `read` aliasing ─── -/

/-- The JavaScript heap view of the store relevant to ownership: documents
live on the heap, the store maps identifiers to references, and `read`
returns `documents.get(id) ?? null` — the stored reference itself, with no
copying. -/
structure RefCol where
  heap : List Doc
  store : List (String × Nat)

/-- `read` in the reference model: the stored reference. -/
def readRef (c : RefCol) (id : String) : Option Nat :=
  mget c.store id

/-- The document value a reference currently denotes. -/
def derefDoc (c : RefCol) (r : Nat) : Option Doc :=
  c.heap[r]?

/-- A caller mutating the object it received from `read` writes through the
shared reference into the heap; the store itself is untouched. -/
def callerMutate (c : RefCol) (r : Nat) (f : Doc → Doc) : RefCol :=
  ⟨c.heap.mapIdx (fun i d => if i = r then f d else d), c.store⟩

/- ─── The index invariant ─── -/

/-- `true` when identifier `id` sits in the bucket for value `v` of field
`f`'s index. -/
def inBucket (c : Col) (f : String) (v : Value) (id : String) : Bool :=
  match mget c.indexes f with
  | none => false
  | some m =>
      match mget m v with
      | none => false
      | some s => decide (id ∈ s)

/-- `true` when `id` is bound in the store to a document whose field `f`
holds `v` (the witness a sound bucket membership must have). -/
def soundAt (c : Col) (f : String) (v : Value) (id : String) : Bool :=
  match mget c.documents id with
  | none => false
  | some d => decide (getField d f = v)

/-- Per-bucket well-formedness. -/
def wfBucket (b : Bucket) : Prop :=
  (mkeys b).Nodup ∧ ∀ q ∈ b, q.2.Nodup

/-- Well-formedness of all buckets of an index map. -/
def wfIdx (idx : List (String × Bucket)) : Prop :=
  ∀ p ∈ idx, wfBucket p.2

/-- Structural well-formedness: duplicate-free configured fields, store
keys, bucket-map keys and buckets. -/
def wfCol (c : Col) : Prop :=
  c.indexed.Nodup ∧ (mkeys c.documents).Nodup ∧ wfIdx c.indexes

/-- The collection invariant, stated over the finite contents of the
structures (hence decidable):
* the index map has exactly the configured fields as keys;
* every stored binding maps an identifier to the document carrying it;
* every bucket member is justified by the store (`soundAt`), so an
  identifier appears in no bucket other than the one matching its
  document's current value;
* every stored document's identifier appears in the bucket matching its
  current value for every indexed field;
* no bucket is empty. -/
def good (c : Col) : Prop :=
  wfCol c ∧
  mkeys c.indexes = c.indexed ∧
  (∀ p ∈ c.documents, p.2._id = p.1) ∧
  (∀ p ∈ c.indexes, ∀ q ∈ p.2, ∀ id ∈ q.2, soundAt c p.1 q.1 id = true) ∧
  (∀ p ∈ c.documents, ∀ f ∈ c.indexed, inBucket c f (getField p.2 f) p.1 = true) ∧
  (∀ p ∈ c.indexes, ∀ q ∈ p.2, q.2 ≠ [])

/-- The same invariant phrased through lookups, the form the preservation
proofs use. -/
def GoodG (c : Col) : Prop :=
  wfCol c ∧
  mkeys c.indexes = c.indexed ∧
  (∀ id d, mget c.documents id = some d → d._id = id) ∧
  (∀ f v id, inBucket c f v id = true → soundAt c f v id = true) ∧
  (∀ id d, mget c.documents id = some d →
    ∀ f ∈ c.indexed, inBucket c f (getField d f) id = true) ∧
  (∀ f m v s, mget c.indexes f = some m → mget m v = some s → s ≠ [])

/- ─── Bucket-level membership and well-formedness lemmas ─── -/

/-- Membership of `id` in the bucket for `v`. -/
def BMem (b : Bucket) (v : Value) (id : String) : Prop :=
  ∃ s, mget b v = some s ∧ id ∈ s

/-- Buckets never map a value to the empty identifier list. -/
def neBucket (b : Bucket) : Prop :=
  ∀ v s, mget b v = some s → s ≠ []

/- ─── Index-level membership characterizations ─── -/

/-- Membership of `id` in field `f`'s bucket for `v`, at the index-map
level. -/
def idxMem (idx : List (String × Bucket)) (f : String) (v : Value) (id : String) : Prop :=
  ∃ m, mget idx f = some m ∧ BMem m v id

/-- The bounded invariant is decidable, so concrete states can be checked
by evaluation. -/
instance goodDecidable (c : Col) : Decidable (good c) := by
  unfold good wfCol wfIdx wfBucket
  infer_instance

/- ─── Reachable collection states ─── -/

/-- States reachable from a fresh collection by the collection operations.
`strict = true` restricts `populate` to inputs whose documents all carry an
identifier (the calls that do not throw); `strict = false` places no
restriction. The generated `create` identifier is always fresh (the UUID
generator does not collide with stored identifiers). -/
inductive Reachable (fs : List String) (strict : Bool) : Col → Prop
  | init (hnd : fs.Nodup) : Reachable fs strict (initCol fs)
  | stepCreate {c : Col} (input : List (String × Value)) (id : String) (now : Int)
      (sync : Option SyncRes) (hid : mget c.documents id = none)
      (h : Reachable fs strict c) : Reachable fs strict (createOp c input id now sync).1
  | stepUpdate {c : Col} (id : String) (patch : List (String × Value)) (now : Int)
      (sync : Option SyncRes) (h : Reachable fs strict c) :
      Reachable fs strict (updateOp c id patch now sync).1
  | stepRemove {c : Col} (id : String) (sync : Option SyncRes)
      (h : Reachable fs strict c) : Reachable fs strict (removeOp c id sync).1
  | stepPopulate {c : Col} (docs : List Doc)
      (hval : strict = true → ∀ d ∈ docs, d._id ≠ "")
      (h : Reachable fs strict c) : Reachable fs strict (populateOp c docs).1
  | stepClear {c : Col} (h : Reachable fs strict c) : Reachable fs strict (clearCol c)

/- ─── Observational restoration after a revert ─── -/

/-- Two collection states agree on everything `read` / `exists` / `count()`
and the index membership structure can observe. -/
def sameView (a b : Col) : Prop :=
  (∀ id, read a id = read b id) ∧ (∀ id, existsDoc a id = existsDoc b id) ∧
  count a none = count b none ∧ (∀ f v id, inBucket a f v id = inBucket b f v id)

/- ─── Helpers for the remaining claims ─── -/

/-- What an unrecognized operator name evaluates to in `whereChecker`: the
entry is skipped (treated as passing) when the operand is undefined or when
operand and field value are both numbers or both strings; otherwise the
field condition fails. -/
def ignoredCompat (value : Value) (operand : Operand) : Bool :=
  match operand with
  | .undef => true
  | .val w =>
      match value, w with
      | .num _, .num _ => true
      | .str _, .str _ => true
      | _, _ => false
  | .regex _ => false
  | .arr _ => false

/- ─── Concrete stores and payloads used by the counterexamples ─── -/

/-- A small consistent two-document collection with an index on `kind`,
used for concrete counterexamples. -/
def c1Col : Col :=
  ⟨["kind"],
    [("a", ⟨"a", [("kind", Value.num 1)]⟩), ("b", ⟨"b", [("kind", Value.num 2)]⟩)],
    [("kind", [(Value.num 1, ["a"]), (Value.num 2, ["b"])])]⟩

/-- The reference-model store used by the C5 counterexample: one document on
the heap, bound to identifier `"a"`. -/
def c5Col : RefCol := ⟨[⟨"a", [("x", Value.num 1)]⟩], [("a", 0)]⟩

/-- The caller-side mutation used by the C5 counterexample. -/
def c5Mut : Doc → Doc := fun d => ⟨d._id, mset d.fields "x" (Value.num 9)⟩

/-- The document used by the C7 counterexample. -/
def c7Doc : Doc := ⟨"d", [("age", Value.num 5)]⟩

/-- The three documents all hold numbers, or all hold strings, at key `k`. -/
def homog3 (k : String) (a b c : Doc) : Prop :=
  (∃ x y z : Int, getField a k = .num x ∧ getField b k = .num y ∧ getField c k = .num z) ∨
  (∃ x y z : String, getField a k = .str x ∧ getField b k = .str y ∧ getField c k = .str z)

/-- Discriminator: the value is a number. -/
def isNumV : Value → Bool
  | .num _ => true
  | _ => false

/-- Discriminator: the value is a string. -/
def isStrV : Value → Bool
  | .str _ => true
  | _ => false

/-- Two-document, one-key store used to witness the amended C9 statement. -/
def c9docs : List Doc :=
  [⟨"a", [("f", Value.num 2)]⟩, ⟨"b", [("f", Value.num 1)]⟩]

@[simp] theorem mget_nil {κ ν : Type} [DecidableEq κ] (k : κ) :
    mget ([] : List (κ × ν)) k = none := rfl

@[simp] theorem mget_cons {κ ν : Type} [DecidableEq κ] (k' : κ) (v' : ν) (m : List (κ × ν))
    (k : κ) : mget ((k', v') :: m) k = if k' = k then some v' else mget m k := rfl

@[simp] theorem mset_nil {κ ν : Type} [DecidableEq κ] (k : κ) (v : ν) :
    mset ([] : List (κ × ν)) k v = [(k, v)] := rfl

@[simp] theorem mset_cons {κ ν : Type} [DecidableEq κ] (k' : κ) (v' : ν) (m : List (κ × ν))
    (k : κ) (v : ν) :
    mset ((k', v') :: m) k v = if k' = k then (k, v) :: m else (k', v') :: mset m k v := rfl

@[simp] theorem mdelete_nil {κ ν : Type} [DecidableEq κ] (k : κ) :
    mdelete ([] : List (κ × ν)) k = [] := rfl

@[simp] theorem mdelete_cons {κ ν : Type} [DecidableEq κ] (k' : κ) (v' : ν) (m : List (κ × ν))
    (k : κ) :
    mdelete ((k', v') :: m) k = if k' = k then mdelete m k else (k', v') :: mdelete m k := rfl

@[simp] theorem mkeys_nil {κ ν : Type} : mkeys ([] : List (κ × ν)) = [] := rfl

@[simp] theorem mkeys_cons {κ ν : Type} (p : κ × ν) (m : List (κ × ν)) :
    mkeys (p :: m) = p.1 :: mkeys m := rfl

@[simp] theorem mvalues_nil {κ ν : Type} : mvalues ([] : List (κ × ν)) = [] := rfl

@[simp] theorem mvalues_cons {κ ν : Type} (p : κ × ν) (m : List (κ × ν)) :
    mvalues (p :: m) = p.2 :: mvalues m := rfl

@[simp] theorem sdelete_nil {α : Type} [DecidableEq α] (x : α) :
    sdelete ([] : List α) x = [] := rfl

@[simp] theorem sdelete_cons {α : Type} [DecidableEq α] (y : α) (s : List α) (x : α) :
    sdelete (y :: s) x = if y = x then sdelete s x else y :: sdelete s x := rfl

/- ─── Basic lemmas about the map and set primitives ─── -/

theorem mget_mset_self {κ ν : Type} [DecidableEq κ] (m : List (κ × ν)) (k : κ) (v : ν) :
    mget (mset m k v) k = some v := by
  induction m with
  | nil => simp
  | cons p rest ih =>
    obtain ⟨k', v'⟩ := p
    by_cases h : k' = k <;> simp [h, ih]

theorem mget_mset_ne {κ ν : Type} [DecidableEq κ] (m : List (κ × ν)) (k k0 : κ) (v : ν)
    (h : k0 ≠ k) : mget (mset m k v) k0 = mget m k0 := by
  have h2 : ¬ k = k0 := fun hh => h (Eq.symm hh)
  induction m with
  | nil => simp [h2]
  | cons p rest ih =>
    obtain ⟨k', v'⟩ := p
    by_cases hk : k' = k
    · subst hk
      simp [h2]
    · by_cases hk0 : k' = k0 <;> simp [hk, hk0, h, ih]

theorem mget_mdelete_self {κ ν : Type} [DecidableEq κ] (m : List (κ × ν)) (k : κ) :
    mget (mdelete m k) k = none := by
  induction m with
  | nil => simp
  | cons p rest ih =>
    obtain ⟨k', v'⟩ := p
    by_cases h : k' = k <;> simp [h, ih]

theorem mget_mdelete_ne {κ ν : Type} [DecidableEq κ] (m : List (κ × ν)) (k k0 : κ)
    (h : k0 ≠ k) : mget (mdelete m k) k0 = mget m k0 := by
  induction m with
  | nil => simp
  | cons p rest ih =>
    obtain ⟨k', v'⟩ := p
    by_cases hk : k' = k
    · subst hk
      have h2 : ¬ k' = k0 := fun hh => h (Eq.symm hh)
      simp [h2, ih]
    · by_cases hk0 : k' = k0 <;> simp [hk, hk0, h, ih]

theorem mget_eq_none_iff {κ ν : Type} [DecidableEq κ] (m : List (κ × ν)) (k : κ) :
    mget m k = none ↔ k ∉ mkeys m := by
  induction m with
  | nil => simp
  | cons p rest ih =>
    obtain ⟨k', v'⟩ := p
    by_cases h : k' = k
    · subst h
      simp
    · have h2 : ¬ k = k' := fun hh => h (Eq.symm hh)
      simp [h, h2, ih]

theorem mem_of_mget_eq_some {κ ν : Type} [DecidableEq κ] {m : List (κ × ν)} {k : κ} {v : ν}
    (h : mget m k = some v) : (k, v) ∈ m := by
  induction m with
  | nil => simp at h
  | cons p rest ih =>
    obtain ⟨k', v'⟩ := p
    by_cases hk : k' = k
    · subst hk
      simp at h
      simp [h]
    · simp [hk] at h
      exact List.mem_cons_of_mem _ (ih h)

theorem mem_mkeys_of_mget {κ ν : Type} [DecidableEq κ] {m : List (κ × ν)} {k : κ} {v : ν}
    (h : mget m k = some v) : k ∈ mkeys m := by
  unfold mkeys
  exact List.mem_map_of_mem Prod.fst (mem_of_mget_eq_some h)

theorem mget_eq_some_of_mem {κ ν : Type} [DecidableEq κ] {m : List (κ × ν)} {k : κ} {v : ν}
    (hnd : (mkeys m).Nodup) (h : (k, v) ∈ m) : mget m k = some v := by
  induction m with
  | nil => simp at h
  | cons p rest ih =>
    obtain ⟨k', v'⟩ := p
    simp only [mkeys_cons, List.nodup_cons] at hnd
    rcases List.mem_cons.1 h with h1 | h2
    · cases h1
      simp
    · have hk : k' ≠ k := by
        rintro rfl
        exact hnd.1 (by simpa [mkeys] using List.mem_map_of_mem Prod.fst h2)
      simp [hk]
      exact ih hnd.2 h2

theorem mkeys_mset_mem {κ ν : Type} [DecidableEq κ] (m : List (κ × ν)) (k : κ) (v : ν)
    (h : k ∈ mkeys m) : mkeys (mset m k v) = mkeys m := by
  induction m with
  | nil => simp at h
  | cons p rest ih =>
    obtain ⟨k', v'⟩ := p
    by_cases hk : k' = k
    · simp [hk]
    · simp [hk] at h ⊢
      rcases h with h | h
      · exact absurd (Eq.symm h) hk
      · exact ih h

theorem mkeys_mset_notMem {κ ν : Type} [DecidableEq κ] (m : List (κ × ν)) (k : κ) (v : ν)
    (h : k ∉ mkeys m) : mkeys (mset m k v) = mkeys m ++ [k] := by
  induction m with
  | nil => simp
  | cons p rest ih =>
    obtain ⟨k', v'⟩ := p
    simp at h
    have hk : k' ≠ k := fun hh => h.1 (Eq.symm hh)
    simp [hk, ih h.2]

theorem mkeys_nodup_mset {κ ν : Type} [DecidableEq κ] (m : List (κ × ν)) (k : κ) (v : ν)
    (h : (mkeys m).Nodup) : (mkeys (mset m k v)).Nodup := by
  by_cases hk : k ∈ mkeys m
  · rw [mkeys_mset_mem m k v hk]; exact h
  · rw [mkeys_mset_notMem m k v hk]
    simpa [List.nodup_append] using ⟨h, hk⟩

theorem mem_mset {κ ν : Type} [DecidableEq κ] {m : List (κ × ν)} {k : κ} {v : ν}
    {p : κ × ν} (h : p ∈ mset m k v) : p = (k, v) ∨ p ∈ m := by
  induction m with
  | nil => simp at h; simp [h]
  | cons q rest ih =>
    obtain ⟨k', v'⟩ := q
    by_cases hk : k' = k <;> simp [hk] at h
    · rcases h with h | h
      · simp [h]
      · simp [h]
    · rcases h with h | h
      · simp [h]
      · rcases ih h with h1 | h1
        · simp [h1]
        · simp [h1]

/-- A `mset` that rewrites an entry to the value it already holds is the
identity on the underlying list. -/
theorem mset_self {κ ν : Type} [DecidableEq κ] {m : List (κ × ν)} {k : κ} {v : ν}
    (h : mget m k = some v) : mset m k v = m := by
  induction m with
  | nil => simp at h
  | cons p rest ih =>
    obtain ⟨k', v'⟩ := p
    by_cases hk : k' = k
    · subst hk
      simp at h
      simp [h]
    · simp [hk] at h ⊢
      exact ih h

theorem mset_mset_same {κ ν : Type} [DecidableEq κ] (m : List (κ × ν)) (k : κ) (v w : ν) :
    mset (mset m k v) k w = mset m k w := by
  induction m with
  | nil => simp
  | cons p rest ih =>
    obtain ⟨k', v'⟩ := p
    by_cases hk : k' = k <;> simp [hk, ih]

/-- Deleting a freshly appended key restores the original list exactly. -/
theorem mdelete_mset_fresh {κ ν : Type} [DecidableEq κ] (m : List (κ × ν)) (k : κ) (v : ν)
    (h : k ∉ mkeys m) : mdelete (mset m k v) k = m := by
  induction m with
  | nil => simp
  | cons p rest ih =>
    obtain ⟨k', v'⟩ := p
    simp at h
    have hk : k' ≠ k := fun hh => h.1 (Eq.symm hh)
    simp [hk, ih h.2]

theorem mkeys_mdelete_sublist {κ ν : Type} [DecidableEq κ] (m : List (κ × ν)) (k : κ) :
    (mkeys (mdelete m k)).Sublist (mkeys m) := by
  induction m with
  | nil => simp
  | cons p rest ih =>
    obtain ⟨k', v'⟩ := p
    by_cases hk : k' = k
    · simp only [mdelete_cons, if_pos hk, mkeys_cons]
      exact ih.trans (List.sublist_cons_self _ _)
    · simpa [hk] using ih

theorem mkeys_mdelete_nodup {κ ν : Type} [DecidableEq κ] (m : List (κ × ν)) (k : κ)
    (h : (mkeys m).Nodup) : (mkeys (mdelete m k)).Nodup :=
  (mkeys_mdelete_sublist m k).nodup h

theorem mem_mdelete {κ ν : Type} [DecidableEq κ] (m : List (κ × ν)) (k : κ) (p : κ × ν) :
    p ∈ mdelete m k ↔ p ∈ m ∧ p.1 ≠ k := by
  induction m with
  | nil => simp
  | cons q rest ih =>
    obtain ⟨k', v'⟩ := q
    by_cases hk : k' = k
    · subst hk
      rw [mdelete_cons, if_pos rfl]
      constructor
      · intro hmem
        obtain ⟨h1, h2⟩ := ih.1 hmem
        exact ⟨List.mem_cons_of_mem _ h1, h2⟩
      · rintro ⟨hmem, hne⟩
        rcases List.mem_cons.1 hmem with h1 | h1
        · exact absurd (congrArg Prod.fst h1) hne
        · exact ih.2 ⟨h1, hne⟩
    · rw [mdelete_cons, if_neg hk]
      constructor
      · intro hmem
        rcases List.mem_cons.1 hmem with h1 | h1
        · subst h1
          exact ⟨List.mem_cons_self _ _, hk⟩
        · obtain ⟨h2, h3⟩ := ih.1 h1
          exact ⟨List.mem_cons_of_mem _ h2, h3⟩
      · rintro ⟨hmem, hne⟩
        rcases List.mem_cons.1 hmem with h1 | h1
        · subst h1
          exact List.mem_cons_self _ _
        · exact List.mem_cons_of_mem _ (ih.2 ⟨h1, hne⟩)

/-- Deleting a key that is absent is the identity on the list. -/
theorem mdelete_of_notMem {κ ν : Type} [DecidableEq κ] {m : List (κ × ν)} {k : κ}
    (h : k ∉ mkeys m) : mdelete m k = m := by
  induction m with
  | nil => simp
  | cons p rest ih =>
    obtain ⟨k', v'⟩ := p
    simp at h
    have hk : k' ≠ k := fun hh => h.1 (Eq.symm hh)
    simp [hk, ih h.2]

theorem length_mdelete_of_mem {κ ν : Type} [DecidableEq κ] (m : List (κ × ν)) (k : κ)
    (hnd : (mkeys m).Nodup) (h : k ∈ mkeys m) :
    (mdelete m k).length + 1 = m.length := by
  induction m with
  | nil => simp at h
  | cons p rest ih =>
    obtain ⟨k', v'⟩ := p
    simp only [mkeys_cons, List.nodup_cons] at hnd
    by_cases hk : k' = k
    · subst hk
      simp [mdelete_of_notMem hnd.1]
    · simp [hk] at h ⊢
      rcases h with h | h
      · exact absurd (Eq.symm h) hk
      · exact ih hnd.2 h

theorem length_mset_fresh {κ ν : Type} [DecidableEq κ] (m : List (κ × ν)) (k : κ) (v : ν)
    (h : k ∉ mkeys m) : (mset m k v).length = m.length + 1 := by
  induction m with
  | nil => simp
  | cons p rest ih =>
    obtain ⟨k', v'⟩ := p
    simp at h
    have hk : k' ≠ k := fun hh => h.1 (Eq.symm hh)
    simp [hk, ih h.2]

theorem length_mset_mem {κ ν : Type} [DecidableEq κ] (m : List (κ × ν)) (k : κ) (v : ν)
    (h : k ∈ mkeys m) : (mset m k v).length = m.length := by
  induction m with
  | nil => simp at h
  | cons p rest ih =>
    obtain ⟨k', v'⟩ := p
    by_cases hk : k' = k
    · simp [hk]
    · simp [hk] at h ⊢
      rcases h with h | h
      · exact absurd (Eq.symm h) hk
      · exact ih h

theorem mem_saddE {α : Type} [DecidableEq α] (s : List α) (x y : α) :
    y ∈ saddE s x ↔ y ∈ s ∨ y = x := by
  by_cases h : x ∈ s
  · simp only [saddE, if_pos h]
    constructor
    · exact Or.inl
    · rintro (hy | rfl)
      · exact hy
      · exact h
  · simp [saddE, if_neg h]

theorem saddE_ne_nil {α : Type} [DecidableEq α] (s : List α) (x : α) : saddE s x ≠ [] := by
  by_cases h : x ∈ s
  · simp only [saddE, if_pos h]
    rintro rfl
    simp at h
  · simp [saddE, if_neg h]

theorem saddE_nodup {α : Type} [DecidableEq α] (s : List α) (x : α) (h : s.Nodup) :
    (saddE s x).Nodup := by
  by_cases hx : x ∈ s
  · simpa [saddE, if_pos hx] using h
  · simpa [saddE, if_neg hx, List.nodup_append] using ⟨h, hx⟩

theorem mem_sdelete {α : Type} [DecidableEq α] (s : List α) (x y : α) :
    y ∈ sdelete s x ↔ y ∈ s ∧ y ≠ x := by
  induction s with
  | nil => simp
  | cons a rest ih =>
    by_cases ha : a = x
    · subst ha
      rw [sdelete_cons, if_pos rfl, ih]
      constructor
      · rintro ⟨h1, h2⟩
        exact ⟨List.mem_cons_of_mem _ h1, h2⟩
      · rintro ⟨hmem, hne⟩
        rcases List.mem_cons.1 hmem with h1 | h1
        · exact absurd h1 hne
        · exact ⟨h1, hne⟩
    · rw [sdelete_cons, if_neg ha]
      constructor
      · intro hmem
        rcases List.mem_cons.1 hmem with h1 | h1
        · subst h1
          exact ⟨List.mem_cons_self _ _, ha⟩
        · obtain ⟨h2, h3⟩ := ih.1 h1
          exact ⟨List.mem_cons_of_mem _ h2, h3⟩
      · rintro ⟨hmem, hne⟩
        rcases List.mem_cons.1 hmem with h1 | h1
        · subst h1
          exact List.mem_cons_self _ _
        · exact List.mem_cons_of_mem _ (ih.2 ⟨h1, hne⟩)

theorem sdelete_nodup {α : Type} [DecidableEq α] (s : List α) (x : α) (h : s.Nodup) :
    (sdelete s x).Nodup := by
  induction s with
  | nil => simp
  | cons a rest ih =>
    simp at h
    by_cases ha : a = x
    · simp [ha, ih h.2]
    · simp only [sdelete_cons, if_neg ha, List.nodup_cons]
      refine ⟨?_, ih h.2⟩
      intro hmem
      exact h.1 ((mem_sdelete rest x a).1 hmem).1

/-- Removing an element that is not there is the identity on the list. -/
theorem sdelete_of_notMem {α : Type} [DecidableEq α] (s : List α) (x : α) (h : x ∉ s) :
    sdelete s x = s := by
  induction s with
  | nil => simp
  | cons a rest ih =>
    simp at h
    have ha : a ≠ x := fun hh => h.1 (Eq.symm hh)
    simp [ha, ih h.2]

/-- `add` then `delete` of a fresh element restores the set exactly. -/
theorem sdelete_saddE_fresh {α : Type} [DecidableEq α] (s : List α) (x : α) (h : x ∉ s) :
    sdelete (saddE s x) x = s := by
  simp only [saddE, if_neg h]
  induction s with
  | nil => simp
  | cons a rest ih =>
    simp at h
    have ha : a ≠ x := fun hh => h.1 (Eq.symm hh)
    simp [ha, ih h.2]

/- ─── Fold characterizations of the index operations ─── -/

theorem applyIdx_get_notMem (fs : List String) (F : String → Bucket → Bucket)
    (idx : List (String × Bucket)) (f : String) (hf : f ∉ fs) :
    mget (applyIdx fs F idx) f = mget idx f := by
  induction fs generalizing idx with
  | nil => rfl
  | cons g rest ih =>
    simp at hf
    have hfg : f ≠ g := hf.1
    simp only [applyIdx, List.foldl_cons]
    rw [show (rest.foldl (fun ix f2 => mset ix f2 (F f2 ((mget ix f2).getD []))) 
      (mset idx g (F g ((mget idx g).getD [])))) = applyIdx rest F 
      (mset idx g (F g ((mget idx g).getD []))) from rfl]
    rw [ih _ hf.2, mget_mset_ne _ _ _ _ hfg]

theorem applyIdx_get_mem (fs : List String) (F : String → Bucket → Bucket)
    (idx : List (String × Bucket)) (f : String) (hnd : fs.Nodup) (hf : f ∈ fs) :
    mget (applyIdx fs F idx) f = some (F f ((mget idx f).getD [])) := by
  induction fs generalizing idx with
  | nil => simp at hf
  | cons g rest ih =>
    simp only [List.nodup_cons] at hnd
    simp only [applyIdx, List.foldl_cons]
    rw [show (rest.foldl (fun ix f2 => mset ix f2 (F f2 ((mget ix f2).getD []))) 
      (mset idx g (F g ((mget idx g).getD [])))) = applyIdx rest F 
      (mset idx g (F g ((mget idx g).getD []))) from rfl]
    rcases List.mem_cons.1 hf with rfl | hfr
    · rw [applyIdx_get_notMem rest F _ f hnd.1, mget_mset_self]
    · rw [ih _ hnd.2 hfr]
      by_cases hfg : f = g
      · subst hfg
        exact absurd hfr hnd.1
      · rw [mget_mset_ne _ _ _ _ hfg]

theorem applyIdx_keys (fs : List String) (F : String → Bucket → Bucket)
    (idx : List (String × Bucket)) (hsub : ∀ f ∈ fs, f ∈ mkeys idx) :
    mkeys (applyIdx fs F idx) = mkeys idx := by
  induction fs generalizing idx with
  | nil => rfl
  | cons g rest ih =>
    simp only [applyIdx, List.foldl_cons]
    rw [show (rest.foldl (fun ix f2 => mset ix f2 (F f2 ((mget ix f2).getD []))) 
      (mset idx g (F g ((mget idx g).getD [])))) = applyIdx rest F 
      (mset idx g (F g ((mget idx g).getD [])))  from rfl]
    have hkg : mkeys (mset idx g (F g ((mget idx g).getD []))) = mkeys idx :=
      mkeys_mset_mem idx g _ (hsub g (List.mem_cons_self g rest))
    rw [ih _ (fun f hf => hkg ▸ hsub f (List.mem_cons_of_mem g hf)), hkg]

theorem bmem_addAt (b : Bucket) (v0 : Value) (i0 : String) (v : Value) (id : String) :
    BMem (bucketAddAt b v0 i0) v id ↔ BMem b v id ∨ (v = v0 ∧ id = i0) := by
  unfold bucketAddAt BMem
  by_cases hv : v = v0
  · subst hv
    rw [mget_mset_self]
    constructor
    · rintro ⟨s, hs, hid⟩
      obtain rfl : saddE ((mget b v).getD []) i0 = s := by injection hs
      rcases (mem_saddE _ _ _).1 hid with h1 | h1
      · cases hb : mget b v with
        | none => simp [hb] at h1
        | some s0 =>
            exact Or.inl ⟨s0, rfl, by simpa [hb] using h1⟩
      · exact Or.inr ⟨rfl, h1⟩
    · rintro (⟨s, hs, hid⟩ | ⟨-, rfl⟩)
      · exact ⟨_, rfl, (mem_saddE _ _ _).2 (Or.inl (by simp [hs]; exact hid))⟩
      · exact ⟨_, rfl, (mem_saddE _ _ _).2 (Or.inr rfl)⟩
  · rw [mget_mset_ne _ _ _ _ hv]
    constructor
    · rintro ⟨s, hs, hid⟩
      exact Or.inl ⟨s, hs, hid⟩
    · rintro (⟨s, hs, hid⟩ | ⟨h1, -⟩)
      · exact ⟨s, hs, hid⟩
      · exact absurd h1 hv

theorem bmem_removeAt (b : Bucket) (v0 : Value) (i0 : String) (v : Value) (id : String) :
    BMem (bucketRemoveAt b v0 i0) v id ↔ BMem b v id ∧ ¬(v = v0 ∧ id = i0) := by
  unfold bucketRemoveAt
  cases hb : mget b v0 with
  | none =>
      constructor
      · intro h
        refine ⟨h, ?_⟩
        rintro ⟨rfl, rfl⟩
        obtain ⟨s, hs, -⟩ := h
        rw [hb] at hs
        cases hs
      · exact fun h => h.1
  | some s0 =>
      simp only []
      by_cases hemp : (sdelete s0 i0).isEmpty
      · -- the bucket for v0 is dropped
        rw [if_pos hemp]
        by_cases hv : v = v0
        · subst hv
          rw [show BMem (mdelete b v) v id ↔ False by
            simp [BMem, mget_mdelete_self]]
          simp only [false_iff]
          rintro ⟨⟨s, hs, hid⟩, hne⟩
          rw [hb] at hs
          obtain rfl : s0 = s := by injection hs
          have : id ≠ i0 := fun hh => hne (by simp [hh])
          have : id ∈ sdelete s0 i0 := (mem_sdelete _ _ _).2 ⟨hid, this⟩
          rw [List.isEmpty_iff.1 hemp] at this
          simp at this
        · rw [show BMem (mdelete b v0) v id ↔ BMem b v id by
            simp [BMem, mget_mdelete_ne _ _ _ hv]]
          constructor
          · exact fun h => ⟨h, fun hh => hv hh.1⟩
          · exact fun h => h.1
      · rw [if_neg hemp]
        by_cases hv : v = v0
        · subst hv
          rw [show BMem (mset b v (sdelete s0 i0)) v id ↔ id ∈ sdelete s0 i0 by
            simp [BMem, mget_mset_self]]
          rw [mem_sdelete]
          constructor
          · rintro ⟨hid, hne⟩
            exact ⟨⟨s0, hb, hid⟩, fun hh => hne hh.2⟩
          · rintro ⟨⟨s, hs, hid⟩, hne⟩
            rw [hb] at hs
            obtain rfl : s0 = s := by injection hs
            exact ⟨hid, fun hh => hne ⟨rfl, hh⟩⟩
        · rw [show BMem (mset b v0 (sdelete s0 i0)) v id ↔ BMem b v id by
            simp [BMem, mget_mset_ne _ _ _ _ hv]]
          constructor
          · exact fun h => ⟨h, fun hh => hv hh.1⟩
          · exact fun h => h.1

theorem neBucket_addAt (b : Bucket) (v0 : Value) (i0 : String) (h : neBucket b) :
    neBucket (bucketAddAt b v0 i0) := by
  intro v s hs
  unfold bucketAddAt at hs
  by_cases hv : v = v0
  · subst hv
    rw [mget_mset_self] at hs
    obtain rfl : saddE ((mget b v).getD []) i0 = s := by injection hs
    exact saddE_ne_nil _ _
  · rw [mget_mset_ne _ _ _ _ hv] at hs
    exact h v s hs

theorem neBucket_removeAt (b : Bucket) (v0 : Value) (i0 : String) (h : neBucket b) :
    neBucket (bucketRemoveAt b v0 i0) := by
  intro v s hs
  unfold bucketRemoveAt at hs
  cases hb : mget b v0 with
  | none =>
      rw [hb] at hs
      exact h v s hs
  | some s0 =>
      rw [hb] at hs
      simp only [] at hs
      by_cases hemp : (sdelete s0 i0).isEmpty
      · rw [if_pos hemp] at hs
        by_cases hv : v = v0
        · subst hv
          rw [mget_mdelete_self] at hs
          cases hs
        · rw [mget_mdelete_ne _ _ _ hv] at hs
          exact h v s hs
      · rw [if_neg hemp] at hs
        by_cases hv : v = v0
        · subst hv
          rw [mget_mset_self] at hs
          obtain rfl : sdelete s0 i0 = s := by injection hs
          intro hnil
          rw [hnil] at hemp
          simp at hemp
        · rw [mget_mset_ne _ _ _ _ hv] at hs
          exact h v s hs

theorem wfBucket_getD (idx : List (String × Bucket)) (f : String) (h : wfIdx idx) :
    wfBucket ((mget idx f).getD []) := by
  cases hb : mget idx f with
  | none => exact ⟨by simp, by simp⟩
  | some b => exact h (f, b) (mem_of_mget_eq_some hb)

theorem wfBucket_addAt (b : Bucket) (v0 : Value) (i0 : String) (h : wfBucket b) :
    wfBucket (bucketAddAt b v0 i0) := by
  constructor
  · exact mkeys_nodup_mset _ _ _ h.1
  · intro q hq
    rcases mem_mset hq with h1 | h1
    · subst h1
      refine saddE_nodup _ _ ?_
      cases hb : mget b v0 with
      | none => simp
      | some s => simpa using h.2 (v0, s) (mem_of_mget_eq_some hb)
    · exact h.2 q h1

theorem wfBucket_removeAt (b : Bucket) (v0 : Value) (i0 : String) (h : wfBucket b) :
    wfBucket (bucketRemoveAt b v0 i0) := by
  unfold bucketRemoveAt
  cases hb : mget b v0 with
  | none => exact h
  | some s0 =>
      simp only []
      by_cases hemp : (sdelete s0 i0).isEmpty
      · rw [if_pos hemp]
        exact ⟨mkeys_mdelete_nodup _ _ h.1, fun q hq => h.2 q ((mem_mdelete _ _ _).1 hq).1⟩
      · rw [if_neg hemp]
        refine ⟨mkeys_nodup_mset _ _ _ h.1, fun q hq => ?_⟩
        rcases mem_mset hq with h1 | h1
        · subst h1
          exact sdelete_nodup _ _ (h.2 (v0, s0) (mem_of_mget_eq_some hb))
        · exact h.2 q h1

theorem wfIdx_mset (idx : List (String × Bucket)) (f : String) (b : Bucket)
    (h : wfIdx idx) (hb : wfBucket b) : wfIdx (mset idx f b) := by
  intro p hp
  rcases mem_mset hp with h1 | h1
  · subst h1
    exact hb
  · exact h p h1

theorem wfIdx_applyIdx (fs : List String) (F : String → Bucket → Bucket)
    (idx : List (String × Bucket)) (h : wfIdx idx)
    (hF : ∀ f b, wfBucket b → wfBucket (F f b)) : wfIdx (applyIdx fs F idx) := by
  induction fs generalizing idx with
  | nil => exact h
  | cons g rest ih =>
    simp only [applyIdx, List.foldl_cons]
    exact ih _ (wfIdx_mset _ _ _ h (hF g _ (wfBucket_getD idx g h)))

theorem inBucket_iff (c : Col) (f : String) (v : Value) (id : String) :
    inBucket c f v id = true ↔ idxMem c.indexes f v id := by
  unfold inBucket idxMem BMem
  cases hm : mget c.indexes f with
  | none => simp
  | some m =>
      cases hs : mget m v with
      | none => simp [hs]
      | some s => simp [hs]

theorem bmem_getD (idx : List (String × Bucket)) (f : String) (v : Value) (id : String) :
    BMem ((mget idx f).getD []) v id ↔ idxMem idx f v id := by
  unfold idxMem
  cases hm : mget idx f with
  | none =>
      simp only [Option.getD_none]
      constructor
      · rintro ⟨s, hs, -⟩
        cases hs
      · rintro ⟨m, hm2, -⟩
        cases hm2
  | some m => simp

theorem idxMem_indexAddDoc (fs : List String) (idx : List (String × Bucket)) (d : Doc)
    (hnd : fs.Nodup) (f : String) (v : Value) (id : String) :
    idxMem (indexAddDoc fs idx d) f v id ↔
      idxMem idx f v id ∨ (f ∈ fs ∧ v = getField d f ∧ id = d._id) := by
  by_cases hf : f ∈ fs
  · unfold indexAddDoc
    rw [show idxMem (applyIdx fs (fun f2 b => bucketAddAt b (getField d f2) d._id) idx) f v id
        ↔ BMem (bucketAddAt ((mget idx f).getD []) (getField d f) d._id) v id by
      unfold idxMem
      rw [applyIdx_get_mem fs _ idx f hnd hf]
      simp]
    rw [bmem_addAt, bmem_getD]
    constructor
    · rintro (h | ⟨h1, h2⟩)
      · exact Or.inl h
      · exact Or.inr ⟨hf, h1, h2⟩
    · rintro (h | ⟨-, h1, h2⟩)
      · exact Or.inl h
      · exact Or.inr ⟨h1, h2⟩
  · unfold indexAddDoc idxMem
    rw [applyIdx_get_notMem fs _ idx f hf]
    constructor
    · exact fun h => Or.inl h
    · rintro (h | ⟨h1, -⟩)
      · exact h
      · exact absurd h1 hf

theorem idxMem_indexRemoveDoc (fs : List String) (idx : List (String × Bucket)) (d : Doc)
    (hnd : fs.Nodup) (f : String) (v : Value) (id : String) :
    idxMem (indexRemoveDoc fs idx d) f v id ↔
      idxMem idx f v id ∧ ¬(f ∈ fs ∧ v = getField d f ∧ id = d._id) := by
  by_cases hf : f ∈ fs
  · unfold indexRemoveDoc
    rw [show idxMem (applyIdx fs (fun f2 b => bucketRemoveAt b (getField d f2) d._id) idx) f v id
        ↔ BMem (bucketRemoveAt ((mget idx f).getD []) (getField d f) d._id) v id by
      unfold idxMem
      rw [applyIdx_get_mem fs _ idx f hnd hf]
      simp]
    rw [bmem_removeAt, bmem_getD]
    constructor
    · rintro ⟨h1, h2⟩
      exact ⟨h1, fun hh => h2 ⟨hh.2.1, hh.2.2⟩⟩
    · rintro ⟨h1, h2⟩
      exact ⟨h1, fun hh => h2 ⟨hf, hh.1, hh.2⟩⟩
  · unfold indexRemoveDoc idxMem
    rw [applyIdx_get_notMem fs _ idx f hf]
    constructor
    · exact fun h => ⟨h, fun hh => hf hh.1⟩
    · exact fun h => h.1

theorem idxMem_indexUpdateDoc_notMem (fs : List String) (idx : List (String × Bucket))
    (before after : Doc) (f : String) (v : Value) (id : String) (hf : f ∉ fs) :
    idxMem (indexUpdateDoc fs idx before after) f v id ↔ idxMem idx f v id := by
  unfold indexUpdateDoc idxMem
  rw [applyIdx_get_notMem fs _ idx f hf]

theorem idxMem_indexUpdateDoc_eq (fs : List String) (idx : List (String × Bucket))
    (before after : Doc) (f : String) (v : Value) (id : String) (hnd : fs.Nodup)
    (hf : f ∈ fs) (heq : getField before f = getField after f) :
    idxMem (indexUpdateDoc fs idx before after) f v id ↔ idxMem idx f v id := by
  unfold indexUpdateDoc idxMem
  rw [applyIdx_get_mem fs _ idx f hnd hf]
  simp only [if_pos heq]
  rw [show (∃ m, some ((mget idx f).getD []) = some m ∧ BMem m v id)
      ↔ BMem ((mget idx f).getD []) v id by simp]
  exact bmem_getD idx f v id

theorem idxMem_indexUpdateDoc_ne (fs : List String) (idx : List (String × Bucket))
    (before after : Doc) (f : String) (v : Value) (id : String) (hnd : fs.Nodup)
    (hf : f ∈ fs) (hne2 : getField before f ≠ getField after f) :
    idxMem (indexUpdateDoc fs idx before after) f v id ↔
      ((idxMem idx f v id ∧ ¬(v = getField before f ∧ id = before._id)) ∨
        (v = getField after f ∧ id = after._id)) := by
  unfold indexUpdateDoc idxMem
  rw [applyIdx_get_mem fs _ idx f hnd hf]
  simp only [if_neg hne2]
  rw [show (∃ m, some (bucketAddAt
        (bucketRemoveAt ((mget idx f).getD []) (getField before f) before._id)
        (getField after f) after._id) = some m ∧ BMem m v id)
      ↔ BMem (bucketAddAt
        (bucketRemoveAt ((mget idx f).getD []) (getField before f) before._id)
        (getField after f) after._id) v id by simp]
  rw [bmem_addAt, bmem_removeAt, bmem_getD]
  simp only [idxMem]

/-- A bucket map selected with `getD []` inherits the no-empty-bucket
property. -/
theorem neBucket_getD (idx : List (String × Bucket)) (f : String)
    (hne : ∀ f2 m v s, mget idx f2 = some m → mget m v = some s → s ≠ []) :
    neBucket ((mget idx f).getD []) := by
  cases hm : mget idx f with
  | none =>
      intro v s hs
      cases hs
  | some m =>
      intro v s hs
      exact hne f m v s hm (by simpa using hs)

/- ─── Invariant preservation for the primitive state changes ─── -/

theorem goodG_create (c : Col) (id : String) (d : Doc)
    (hg : GoodG c) (hfresh : mget c.documents id = none) (hid : d._id = id) :
    GoodG ⟨c.indexed, mset c.documents id d, indexAddDoc c.indexed c.indexes d⟩ := by
  obtain ⟨⟨hndF, hndD, hwfI⟩, hkeys, hbind, hsound, hcompl, hne⟩ := hg
  have hsub : ∀ f ∈ c.indexed, f ∈ mkeys c.indexes := fun f hf => hkeys ▸ hf
  refine ⟨⟨hndF, mkeys_nodup_mset _ _ _ hndD, ?_⟩, ?_, ?_, ?_, ?_, ?_⟩
  · exact wfIdx_applyIdx _ _ _ hwfI (fun f b hb => wfBucket_addAt b _ _ hb)
  · rw [show mkeys (⟨c.indexed, mset c.documents id d,
      indexAddDoc c.indexed c.indexes d⟩ : Col).indexes =
      mkeys (indexAddDoc c.indexed c.indexes d) from rfl]
    unfold indexAddDoc
    rw [applyIdx_keys _ _ _ hsub, hkeys]
  · intro id2 d2 h
    by_cases hi : id2 = id
    · subst hi
      rw [mget_mset_self] at h
      obtain rfl : d = d2 := by injection h
      exact hid
    · rw [mget_mset_ne _ _ _ _ hi] at h
      exact hbind id2 d2 h
  · intro f v id2 h
    rw [inBucket_iff] at h
    rw [show (⟨c.indexed, mset c.documents id d,
      indexAddDoc c.indexed c.indexes d⟩ : Col).indexes =
      indexAddDoc c.indexed c.indexes d from rfl] at h
    rw [idxMem_indexAddDoc _ _ _ hndF] at h
    unfold soundAt
    rcases h with h | ⟨hf, hv, hid2⟩
    · have hs := hsound f v id2 ((inBucket_iff c f v id2).2 h)
      unfold soundAt at hs
      cases hd : mget c.documents id2 with
      | none => rw [hd] at hs; cases hs
      | some d2 =>
          rw [hd] at hs
          have hi : id2 ≠ id := by
            rintro rfl
            rw [hfresh] at hd
            cases hd
          rw [show (⟨c.indexed, mset c.documents id d,
            indexAddDoc c.indexed c.indexes d⟩ : Col).documents =
            mset c.documents id d from rfl]
          rw [mget_mset_ne _ _ _ _ hi, hd]
          exact hs
    · subst hv
      rw [show (⟨c.indexed, mset c.documents id d,
        indexAddDoc c.indexed c.indexes d⟩ : Col).documents =
        mset c.documents id d from rfl]
      rw [hid2, hid, mget_mset_self]
      simp
  · intro id2 d2 h f hf
    rw [show (⟨c.indexed, mset c.documents id d,
      indexAddDoc c.indexed c.indexes d⟩ : Col).documents =
      mset c.documents id d from rfl] at h
    rw [inBucket_iff]
    rw [show (⟨c.indexed, mset c.documents id d,
      indexAddDoc c.indexed c.indexes d⟩ : Col).indexes =
      indexAddDoc c.indexed c.indexes d from rfl]
    rw [idxMem_indexAddDoc _ _ _ hndF]
    by_cases hi : id2 = id
    · subst hi
      rw [mget_mset_self] at h
      obtain rfl : d = d2 := by injection h
      exact Or.inr ⟨hf, rfl, Eq.symm hid⟩
    · rw [mget_mset_ne _ _ _ _ hi] at h
      exact Or.inl ((inBucket_iff c f _ id2).1 (hcompl id2 d2 h f hf))
  · intro f m v s hm hs
    rw [show (⟨c.indexed, mset c.documents id d,
      indexAddDoc c.indexed c.indexes d⟩ : Col).indexes =
      indexAddDoc c.indexed c.indexes d from rfl] at hm
    unfold indexAddDoc at hm
    by_cases hf : f ∈ c.indexed
    · rw [applyIdx_get_mem _ _ _ _ hndF hf] at hm
      obtain rfl : bucketAddAt ((mget c.indexes f).getD []) (getField d f) d._id = m := by
        injection hm
      exact neBucket_addAt _ _ _ (neBucket_getD c.indexes f hne) v s hs
    · rw [applyIdx_get_notMem _ _ _ _ hf] at hm
      exact hne f m v s hm hs

theorem goodG_remove (c : Col) (id : String) (d : Doc)
    (hg : GoodG c) (hd : mget c.documents id = some d) :
    GoodG ⟨c.indexed, mdelete c.documents id, indexRemoveDoc c.indexed c.indexes d⟩ := by
  obtain ⟨⟨hndF, hndD, hwfI⟩, hkeys, hbind, hsound, hcompl, hne⟩ := hg
  have hsub : ∀ f ∈ c.indexed, f ∈ mkeys c.indexes := fun f hf => hkeys ▸ hf
  have hdid : d._id = id := hbind id d hd
  refine ⟨⟨hndF, mkeys_mdelete_nodup _ _ hndD, ?_⟩, ?_, ?_, ?_, ?_, ?_⟩
  · exact wfIdx_applyIdx _ _ _ hwfI (fun f b hb => wfBucket_removeAt b _ _ hb)
  · unfold indexRemoveDoc
    rw [show mkeys (⟨c.indexed, mdelete c.documents id,
      applyIdx c.indexed (fun f b => bucketRemoveAt b (getField d f) d._id) c.indexes⟩
      : Col).indexes = mkeys (applyIdx c.indexed
      (fun f b => bucketRemoveAt b (getField d f) d._id) c.indexes) from rfl]
    rw [applyIdx_keys _ _ _ hsub, hkeys]
  · intro id2 d2 h
    by_cases hi : id2 = id
    · subst hi
      rw [mget_mdelete_self] at h
      cases h
    · rw [mget_mdelete_ne _ _ _ hi] at h
      exact hbind id2 d2 h
  · intro f v id2 h
    rw [inBucket_iff] at h
    rw [show (⟨c.indexed, mdelete c.documents id,
      indexRemoveDoc c.indexed c.indexes d⟩ : Col).indexes =
      indexRemoveDoc c.indexed c.indexes d from rfl] at h
    rw [idxMem_indexRemoveDoc _ _ _ hndF] at h
    obtain ⟨hold, hnot⟩ := h
    have hs := hsound f v id2 ((inBucket_iff c f v id2).2 hold)
    unfold soundAt at hs ⊢
    cases hd2 : mget c.documents id2 with
    | none => rw [hd2] at hs; cases hs
    | some d2 =>
        rw [hd2] at hs
        have hi : id2 ≠ id := by
          rintro rfl
          rw [hd] at hd2
          obtain rfl : d = d2 := by injection hd2
          -- the removed pair: f must be indexed for the bucket to exist
          cases hfidx : mget c.indexes f with
          | none =>
              obtain ⟨m, hm, -⟩ := hold
              rw [hfidx] at hm
              cases hm
          | some m =>
              have hfin : f ∈ c.indexed := hkeys ▸ mem_mkeys_of_mget hfidx
              have hveq : v = getField d f := by
                have := decide_eq_true_iff.1 hs
                exact Eq.symm this
              exact hnot ⟨hfin, hveq, Eq.symm hdid⟩
        rw [show (⟨c.indexed, mdelete c.documents id,
          indexRemoveDoc c.indexed c.indexes d⟩ : Col).documents =
          mdelete c.documents id from rfl]
        rw [mget_mdelete_ne _ _ _ hi, hd2]
        exact hs
  · intro id2 d2 h f hf
    rw [show (⟨c.indexed, mdelete c.documents id,
      indexRemoveDoc c.indexed c.indexes d⟩ : Col).documents =
      mdelete c.documents id from rfl] at h
    by_cases hi : id2 = id
    · subst hi
      rw [mget_mdelete_self] at h
      cases h
    · rw [mget_mdelete_ne _ _ _ hi] at h
      rw [inBucket_iff]
      rw [show (⟨c.indexed, mdelete c.documents id,
        indexRemoveDoc c.indexed c.indexes d⟩ : Col).indexes =
        indexRemoveDoc c.indexed c.indexes d from rfl]
      rw [idxMem_indexRemoveDoc _ _ _ hndF]
      refine ⟨(inBucket_iff c f _ id2).1 (hcompl id2 d2 h f hf), ?_⟩
      rintro ⟨-, -, hid2⟩
      exact hi (hid2.trans hdid)
  · intro f m v s hm hs
    rw [show (⟨c.indexed, mdelete c.documents id,
      indexRemoveDoc c.indexed c.indexes d⟩ : Col).indexes =
      indexRemoveDoc c.indexed c.indexes d from rfl] at hm
    unfold indexRemoveDoc at hm
    by_cases hf : f ∈ c.indexed
    · rw [applyIdx_get_mem _ _ _ _ hndF hf] at hm
      obtain rfl : bucketRemoveAt ((mget c.indexes f).getD []) (getField d f) d._id = m := by
        injection hm
      exact neBucket_removeAt _ _ _ (neBucket_getD c.indexes f hne) v s hs
    · rw [applyIdx_get_notMem _ _ _ _ hf] at hm
      exact hne f m v s hm hs

theorem goodG_update (c : Col) (id : String) (before after : Doc)
    (hg : GoodG c) (hb : mget c.documents id = some before) (hid : after._id = id) :
    GoodG ⟨c.indexed, mset c.documents id after,
      indexUpdateDoc c.indexed c.indexes before after⟩ := by
  obtain ⟨⟨hndF, hndD, hwfI⟩, hkeys, hbind, hsound, hcompl, hne⟩ := hg
  have hsub : ∀ f ∈ c.indexed, f ∈ mkeys c.indexes := fun f hf => hkeys ▸ hf
  have hbid : before._id = id := hbind id before hb
  refine ⟨⟨hndF, mkeys_nodup_mset _ _ _ hndD, ?_⟩, ?_, ?_, ?_, ?_, ?_⟩
  · show wfIdx (indexUpdateDoc c.indexed c.indexes before after)
    unfold indexUpdateDoc
    refine wfIdx_applyIdx _ _ _ hwfI (fun f b hb2 => ?_)
    by_cases heq : getField before f = getField after f
    · simpa [heq] using hb2
    · simpa [heq] using wfBucket_addAt _ _ _ (wfBucket_removeAt _ _ _ hb2)
  · unfold indexUpdateDoc
    rw [show mkeys (⟨c.indexed, mset c.documents id after,
      applyIdx c.indexed (fun f b => if getField before f = getField after f then b
        else bucketAddAt (bucketRemoveAt b (getField before f) before._id)
          (getField after f) after._id) c.indexes⟩ : Col).indexes =
      mkeys (applyIdx c.indexed (fun f b => if getField before f = getField after f then b
        else bucketAddAt (bucketRemoveAt b (getField before f) before._id)
          (getField after f) after._id) c.indexes) from rfl]
    rw [applyIdx_keys _ _ _ hsub, hkeys]
  · intro id2 d2 h
    by_cases hi : id2 = id
    · subst hi
      rw [mget_mset_self] at h
      obtain rfl : after = d2 := by injection h
      exact hid
    · rw [mget_mset_ne _ _ _ _ hi] at h
      exact hbind id2 d2 h
  · intro f v id2 h
    rw [inBucket_iff] at h
    rw [show (⟨c.indexed, mset c.documents id after,
      indexUpdateDoc c.indexed c.indexes before after⟩ : Col).indexes =
      indexUpdateDoc c.indexed c.indexes before after from rfl] at h
    unfold soundAt
    rw [show (⟨c.indexed, mset c.documents id after,
      indexUpdateDoc c.indexed c.indexes before after⟩ : Col).documents =
      mset c.documents id after from rfl]
    by_cases hf : f ∈ c.indexed
    · by_cases heq : getField before f = getField after f
      · rw [idxMem_indexUpdateDoc_eq _ _ _ _ _ _ _ hndF hf heq] at h
        have hs := hsound f v id2 ((inBucket_iff c f v id2).2 h)
        unfold soundAt at hs
        cases hd2 : mget c.documents id2 with
        | none => rw [hd2] at hs; cases hs
        | some d2 =>
            rw [hd2] at hs
            by_cases hi : id2 = id
            · subst hi
              rw [hb] at hd2
              obtain rfl : before = d2 := by injection hd2
              rw [mget_mset_self]
              have hv : getField before f = v := decide_eq_true_iff.1 hs
              simp [← heq, hv]
            · rw [mget_mset_ne _ _ _ _ hi, hd2]
              exact hs
      · rw [idxMem_indexUpdateDoc_ne _ _ _ _ _ _ _ hndF hf heq] at h
        rcases h with ⟨hold, hnotold⟩ | ⟨hv, hid2⟩
        · have hs := hsound f v id2 ((inBucket_iff c f v id2).2 hold)
          unfold soundAt at hs
          cases hd2 : mget c.documents id2 with
          | none => rw [hd2] at hs; cases hs
          | some d2 =>
              rw [hd2] at hs
              by_cases hi : id2 = id
              · subst hi
                rw [hb] at hd2
                obtain rfl : before = d2 := by injection hd2
                exact absurd ⟨Eq.symm (decide_eq_true_iff.1 hs), Eq.symm hbid⟩ hnotold
              · rw [mget_mset_ne _ _ _ _ hi, hd2]
                exact hs
        · rw [hid2, hid, mget_mset_self]
          simp [hv]
    · -- a bucket for a non-indexed field cannot exist
      exfalso
      obtain ⟨m, hm, -⟩ := (idxMem_indexUpdateDoc_notMem _ _ _ _ f v id2 hf).1 h
      exact hf (hkeys ▸ mem_mkeys_of_mget hm)
  · intro id2 d2 h f hf
    rw [show (⟨c.indexed, mset c.documents id after,
      indexUpdateDoc c.indexed c.indexes before after⟩ : Col).documents =
      mset c.documents id after from rfl] at h
    rw [inBucket_iff]
    rw [show (⟨c.indexed, mset c.documents id after,
      indexUpdateDoc c.indexed c.indexes before after⟩ : Col).indexes =
      indexUpdateDoc c.indexed c.indexes before after from rfl]
    by_cases heq : getField before f = getField after f
    · rw [idxMem_indexUpdateDoc_eq _ _ _ _ _ _ _ hndF hf heq]
      by_cases hi : id2 = id
      · subst hi
        rw [mget_mset_self] at h
        obtain rfl : after = d2 := by injection h
        have := (inBucket_iff c f (getField before f) _).1 (hcompl _ before hb f hf)
        rw [heq] at this
        exact this
      · rw [mget_mset_ne _ _ _ _ hi] at h
        exact (inBucket_iff c f _ id2).1 (hcompl id2 d2 h f hf)
    · rw [idxMem_indexUpdateDoc_ne _ _ _ _ _ _ _ hndF hf heq]
      by_cases hi : id2 = id
      · subst hi
        rw [mget_mset_self] at h
        obtain rfl : after = d2 := by injection h
        exact Or.inr ⟨rfl, Eq.symm hid⟩
      · rw [mget_mset_ne _ _ _ _ hi] at h
        refine Or.inl ⟨(inBucket_iff c f _ id2).1 (hcompl id2 d2 h f hf), ?_⟩
        rintro ⟨-, hid2⟩
        exact hi (hid2.trans hbid)
  · intro f m v s hm hs
    rw [show (⟨c.indexed, mset c.documents id after,
      indexUpdateDoc c.indexed c.indexes before after⟩ : Col).indexes =
      indexUpdateDoc c.indexed c.indexes before after from rfl] at hm
    unfold indexUpdateDoc at hm
    by_cases hf : f ∈ c.indexed
    · rw [applyIdx_get_mem _ _ _ _ hndF hf] at hm
      by_cases heq : getField before f = getField after f
      · rw [if_pos heq] at hm
        have hne2 := neBucket_getD c.indexes f hne
        cases hh : mget c.indexes f with
        | none =>
            rw [hh] at hm
            obtain rfl : ([] : Bucket) = m := by injection hm
            cases hs
        | some m0 =>
            rw [hh] at hm
            obtain rfl : m0 = m := by injection hm
            exact hne f _ v s hh hs
      · rw [if_neg heq] at hm
        obtain rfl : bucketAddAt (bucketRemoveAt ((mget c.indexes f).getD [])
            (getField before f) before._id) (getField after f) after._id = m := by
          injection hm
        exact neBucket_addAt _ _ _
          (neBucket_removeAt _ _ _ (neBucket_getD c.indexes f hne)) v s hs
    · rw [applyIdx_get_notMem _ _ _ _ hf] at hm
      exact hne f m v s hm hs

/- ─── Preservation for rebuild, populate, clear, init ─── -/

/-- `indexAddDoc` preserves the no-empty-bucket property. -/
theorem noEmpty_indexAddDoc (fs : List String) (idx : List (String × Bucket)) (d : Doc)
    (hnd : fs.Nodup)
    (hne : ∀ f m v s, mget idx f = some m → mget m v = some s → s ≠ []) :
    ∀ f m v s, mget (indexAddDoc fs idx d) f = some m → mget m v = some s → s ≠ [] := by
  intro f m v s hm hs
  unfold indexAddDoc at hm
  by_cases hf : f ∈ fs
  · rw [applyIdx_get_mem _ _ _ _ hnd hf] at hm
    obtain rfl : bucketAddAt ((mget idx f).getD []) (getField d f) d._id = m := by
      injection hm
    exact neBucket_addAt _ _ _ (neBucket_getD idx f hne) v s hs
  · rw [applyIdx_get_notMem _ _ _ _ hf] at hm
    exact hne f m v s hm hs

/-- Characterization of the repeated `indexAdd` fold that `indexRebuild`
performs. -/
theorem rebuild_fold (fs : List String) (hnd : fs.Nodup) (ds : List Doc) :
    ∀ idx : List (String × Bucket), mkeys idx = fs → wfIdx idx →
    (∀ f m v s, mget idx f = some m → mget m v = some s → s ≠ []) →
    (mkeys (ds.foldl (fun ix d2 => indexAddDoc fs ix d2) idx) = fs ∧
     wfIdx (ds.foldl (fun ix d2 => indexAddDoc fs ix d2) idx) ∧
     (∀ f m v s, mget (ds.foldl (fun ix d2 => indexAddDoc fs ix d2) idx) f = some m →
        mget m v = some s → s ≠ []) ∧
     (∀ f v i, idxMem (ds.foldl (fun ix d2 => indexAddDoc fs ix d2) idx) f v i ↔
        (idxMem idx f v i ∨
          (f ∈ fs ∧ ∃ d2 ∈ ds, d2._id = i ∧ getField d2 f = v)))) := by
  induction ds with
  | nil =>
      intro idx hkeys hwf hne
      refine ⟨hkeys, hwf, hne, fun f v i => ?_⟩
      simp
  | cons d ds ih =>
      intro idx hkeys hwf hne
      have hsub : ∀ f ∈ fs, f ∈ mkeys idx := fun f hf => hkeys ▸ hf
      have hkeys1 : mkeys (indexAddDoc fs idx d) = fs := by
        unfold indexAddDoc
        rw [applyIdx_keys _ _ _ hsub, hkeys]
      have hwf1 : wfIdx (indexAddDoc fs idx d) :=
        wfIdx_applyIdx _ _ _ hwf (fun f b hb => wfBucket_addAt b _ _ hb)
      have hne1 := noEmpty_indexAddDoc fs idx d hnd hne
      obtain ⟨ha, hb2, hc, hd2⟩ := ih (indexAddDoc fs idx d) hkeys1 hwf1 hne1
      refine ⟨by simpa using ha, by simpa using hb2, by simpa using hc, fun f v i => ?_⟩
      rw [show (d :: ds).foldl (fun ix d2 => indexAddDoc fs ix d2) idx =
        ds.foldl (fun ix d2 => indexAddDoc fs ix d2) (indexAddDoc fs idx d) from rfl]
      rw [hd2 f v i, idxMem_indexAddDoc _ _ _ hnd]
      constructor
      · rintro ((h | ⟨hf, hv, hi⟩) | ⟨hf, d2, hmem, hi, hv⟩)
        · exact Or.inl h
        · exact Or.inr ⟨hf, d, List.mem_cons_self _ _, Eq.symm hi, Eq.symm hv⟩
        · exact Or.inr ⟨hf, d2, List.mem_cons_of_mem _ hmem, hi, hv⟩
      · rintro (h | ⟨hf, d2, hmem, hi, hv⟩)
        · exact Or.inl (Or.inl h)
        · rcases List.mem_cons.1 hmem with rfl | hmem2
          · exact Or.inl (Or.inr ⟨hf, Eq.symm hv, Eq.symm hi⟩)
          · exact Or.inr ⟨hf, d2, hmem2, hi, hv⟩

/-- Clearing every bucket map keeps the keys. -/
theorem mkeys_cleared (idx : List (String × Bucket)) :
    mkeys (idx.map (fun p => (p.1, ([] : Bucket)))) = mkeys idx := by
  induction idx with
  | nil => rfl
  | cons p rest ih => simp [ih]

/-- No identifier is a member of any bucket of a cleared index map. -/
theorem idxMem_cleared (idx : List (String × Bucket)) (f : String) (v : Value) (i : String) :
    ¬ idxMem (idx.map (fun p => (p.1, ([] : Bucket)))) f v i := by
  rintro ⟨m, hm, s, hs, -⟩
  have : m = ([] : Bucket) := by
    induction idx with
    | nil => cases hm
    | cons p rest ih =>
        simp only [List.map_cons, mget_cons] at hm
        by_cases hp : p.1 = f
        · rw [if_pos hp] at hm
          injection hm
          simp_all
        · rw [if_neg hp] at hm
          exact ih hm
  rw [this] at hs
  cases hs

theorem wfIdx_cleared (idx : List (String × Bucket)) :
    wfIdx (idx.map (fun p => (p.1, ([] : Bucket)))) := by
  intro p hp
  obtain ⟨q, -, rfl⟩ := List.mem_map.1 hp
  exact ⟨by simp [mkeys], by simp⟩

theorem noEmpty_cleared (idx : List (String × Bucket)) :
    ∀ f m v s, mget (idx.map (fun p => (p.1, ([] : Bucket)))) f = some m →
      mget m v = some s → s ≠ [] := by
  intro f m v s hm hs
  exfalso
  have : m = ([] : Bucket) := by
    induction idx with
    | nil => cases hm
    | cons p rest ih =>
        simp only [List.map_cons, mget_cons] at hm
        by_cases hp : p.1 = f
        · rw [if_pos hp] at hm
          injection hm
          simp_all
        · rw [if_neg hp] at hm
          exact ih hm
  rw [this] at hs
  cases hs

/-- The `populate` loop preserves duplicate-free store keys. -/
theorem populateLoop_nodup (ds : List Doc) :
    ∀ m : List (String × Doc), (mkeys m).Nodup → (mkeys (populateLoop m ds).1).Nodup := by
  induction ds with
  | nil => intro m h; exact h
  | cons d ds ih =>
      intro m h
      unfold populateLoop
      by_cases hd : d._id = ""
      · rw [if_pos hd]
        exact h
      · rw [if_neg hd]
        exact ih _ (mkeys_nodup_mset _ _ _ h)

/-- The `populate` loop preserves the binding property: every stored entry
maps an identifier to the document carrying it. -/
theorem populateLoop_bind (ds : List Doc) :
    ∀ m : List (String × Doc), (∀ id d, mget m id = some d → d._id = id) →
      (∀ id d, mget (populateLoop m ds).1 id = some d → d._id = id) := by
  induction ds with
  | nil => intro m h; exact h
  | cons d0 ds ih =>
      intro m h
      unfold populateLoop
      by_cases hd : d0._id = ""
      · rw [if_pos hd]
        exact h
      · rw [if_neg hd]
        refine ih _ (fun id d hget => ?_)
        by_cases hi : id = d0._id
        · subst hi
          rw [mget_mset_self] at hget
          obtain rfl : d0 = d := by injection hget
          rfl
        · rw [mget_mset_ne _ _ _ _ hi] at hget
          exact h id d hget

/-- Keys of the freshly initialized index map. -/
theorem mkeys_initIdx (fs : List String) :
    mkeys (fs.map (fun f => (f, ([] : Bucket)))) = fs := by
  induction fs with
  | nil => rfl
  | cons f rest ih => simp [ih]

/-- Every bucket map of the freshly initialized index map is empty. -/
theorem mget_initIdx (fs : List String) (f : String) (m : Bucket)
    (h : mget (fs.map (fun f2 => (f2, ([] : Bucket)))) f = some m) : m = [] := by
  induction fs with
  | nil => cases h
  | cons g rest ih =>
      simp only [List.map_cons, mget_cons] at h
      by_cases hg : g = f
      · rw [if_pos hg] at h
        injection h with h2
        exact h2.symm
      · rw [if_neg hg] at h
        exact ih h

/-- A freshly created collection satisfies the invariant. -/
theorem goodG_init (fs : List String) (hnd : fs.Nodup) : GoodG (initCol fs) := by
  refine ⟨⟨hnd, by simp [initCol], ?_⟩, ?_, ?_, ?_, ?_, ?_⟩
  · intro p hp
    obtain ⟨f, -, rfl⟩ := List.mem_map.1 hp
    exact ⟨by simp [mkeys], by simp⟩
  · exact mkeys_initIdx fs
  · intro id d h
    cases h
  · intro f v id h
    exfalso
    unfold inBucket at h
    cases hm : mget (initCol fs).indexes f with
    | none => rw [hm] at h; cases h
    | some m =>
        rw [hm] at h
        rw [mget_initIdx fs f m hm] at h
        simp at h
  · intro id d h
    cases h
  · intro f m v s hm hs
    exfalso
    rw [mget_initIdx fs f m hm] at hs
    cases hs

/-- `clear()` preserves the invariant. -/
theorem goodG_clear (c : Col) (hg : GoodG c) : GoodG (clearCol c) := by
  obtain ⟨⟨hndF, -, -⟩, hkeys, -, -, -, -⟩ := hg
  refine ⟨⟨hndF, by simp [clearCol], wfIdx_cleared _⟩, ?_, ?_, ?_, ?_, ?_⟩
  · show mkeys (c.indexes.map (fun p => (p.1, ([] : Bucket)))) = c.indexed
    rw [mkeys_cleared, hkeys]
  · intro id d h
    cases h
  · intro f v id h
    exfalso
    rw [inBucket_iff] at h
    exact idxMem_cleared _ _ _ _ h
  · intro id d h
    cases h
  · exact noEmpty_cleared c.indexes

/-- A successful `populate` (every document carries an identifier)
restores the invariant via the index rebuild. -/
theorem goodG_populate (c : Col) (docs : List Doc) (hg : GoodG c)
    (hsucc : (populateLoop c.documents docs).2 = true) :
    GoodG (populateOp c docs).1 := by
  obtain ⟨⟨hndF, hndD, hwfI⟩, hkeys, hbind, hsound, hcompl, hne⟩ := hg
  unfold populateOp
  rw [if_pos hsucc]
  set docs2 := (populateLoop c.documents docs).1 with hdocs2
  have hnd2 : (mkeys docs2).Nodup := populateLoop_nodup docs c.documents hndD
  have hbind2 : ∀ id d, mget docs2 id = some d → d._id = id :=
    populateLoop_bind docs c.documents hbind
  have hclr1 : mkeys (c.indexes.map (fun p => (p.1, ([] : Bucket)))) = c.indexed := by
    rw [mkeys_cleared, hkeys]
  obtain ⟨ha, hb2, hc, hd2⟩ := rebuild_fold c.indexed hndF (mvalues docs2)
    (c.indexes.map (fun p => (p.1, ([] : Bucket)))) hclr1 (wfIdx_cleared _)
    (noEmpty_cleared _)
  have hrw : indexRebuild ⟨c.indexed, docs2, c.indexes⟩ =
      (mvalues docs2).foldl (fun ix d2 => indexAddDoc c.indexed ix d2)
        (c.indexes.map (fun p => (p.1, ([] : Bucket)))) := rfl
  refine ⟨⟨hndF, hnd2, ?_⟩, ?_, ?_, ?_, ?_, ?_⟩
  · show wfIdx (indexRebuild ⟨c.indexed, docs2, c.indexes⟩)
    rw [hrw]
    exact hb2
  · show mkeys (indexRebuild ⟨c.indexed, docs2, c.indexes⟩) = c.indexed
    rw [hrw]
    exact ha
  · exact hbind2
  · intro f v id h
    rw [inBucket_iff] at h
    rw [show (⟨c.indexed, docs2, indexRebuild ⟨c.indexed, docs2, c.indexes⟩⟩ : Col).indexes =
      indexRebuild ⟨c.indexed, docs2, c.indexes⟩ from rfl] at h
    rw [hrw, hd2 f v id] at h
    rcases h with h | ⟨-, d2, hmem, hi, hv⟩
    · exact absurd h (idxMem_cleared _ _ _ _)
    · unfold soundAt
      obtain ⟨i2, hpair⟩ : ∃ i2, (i2, d2) ∈ docs2 := by
        unfold mvalues at hmem
        obtain ⟨p, hp, hp2⟩ := List.mem_map.1 hmem
        exact ⟨p.1, by rw [← hp2]; simpa using hp⟩
      have hget : mget docs2 i2 = some d2 := mget_eq_some_of_mem hnd2 hpair
      have : i2 = id := by rw [← hbind2 i2 d2 hget, hi]
      subst this
      rw [show (⟨c.indexed, docs2, indexRebuild ⟨c.indexed, docs2, c.indexes⟩⟩ : Col).documents
        = docs2 from rfl]
      rw [hget]
      simp [hv]
  · intro id d h f hf
    rw [show (⟨c.indexed, docs2, indexRebuild ⟨c.indexed, docs2, c.indexes⟩⟩ : Col).documents
      = docs2 from rfl] at h
    rw [inBucket_iff]
    rw [show (⟨c.indexed, docs2, indexRebuild ⟨c.indexed, docs2, c.indexes⟩⟩ : Col).indexes =
      indexRebuild ⟨c.indexed, docs2, c.indexes⟩ from rfl]
    rw [hrw, hd2 f _ id]
    refine Or.inr ⟨hf, d, ?_, hbind2 id d h, rfl⟩
    unfold mvalues
    exact List.mem_map_of_mem Prod.snd (mem_of_mget_eq_some h)
  · intro f m v s hm hs
    rw [show (⟨c.indexed, docs2, indexRebuild ⟨c.indexed, docs2, c.indexes⟩⟩ : Col).indexes =
      indexRebuild ⟨c.indexed, docs2, c.indexes⟩ from rfl] at hm
    rw [hrw] at hm
    exact hc f m v s hm hs

/- ─── The bounded and lookup-level invariants agree ─── -/

theorem good_iff (c : Col) : good c ↔ GoodG c := by
  unfold good GoodG
  constructor
  · rintro ⟨hwf, hkeys, hbind, hsound, hcompl, hne⟩
    obtain ⟨hndF, hndD, hwfI⟩ := hwf
    have hndIdx : (mkeys c.indexes).Nodup := by rw [hkeys]; exact hndF
    refine ⟨⟨hndF, hndD, hwfI⟩, hkeys, ?_, ?_, ?_, ?_⟩
    · intro id d h
      exact hbind (id, d) (mem_of_mget_eq_some h)
    · intro f v id h
      obtain ⟨m, hm, s, hs, hid⟩ := (inBucket_iff c f v id).1 h
      exact hsound (f, m) (mem_of_mget_eq_some hm) (v, s) (mem_of_mget_eq_some hs) id hid
    · intro id d h f hf
      exact hcompl (id, d) (mem_of_mget_eq_some h) f hf
    · intro f m v s hm hs
      exact hne (f, m) (mem_of_mget_eq_some hm) (v, s) (mem_of_mget_eq_some hs)
  · rintro ⟨hwf, hkeys, hbind, hsound, hcompl, hne⟩
    obtain ⟨hndF, hndD, hwfI⟩ := hwf
    have hndIdx : (mkeys c.indexes).Nodup := by rw [hkeys]; exact hndF
    refine ⟨⟨hndF, hndD, hwfI⟩, hkeys, ?_, ?_, ?_, ?_⟩
    · intro p hp
      exact hbind p.1 p.2 (mget_eq_some_of_mem hndD (by simpa using hp))
    · intro p hp q hq id hid
      have hm : mget c.indexes p.1 = some p.2 := mget_eq_some_of_mem hndIdx (by simpa using hp)
      have hs : mget p.2 q.1 = some q.2 :=
        mget_eq_some_of_mem (hwfI p hp).1 (by simpa using hq)
      exact hsound p.1 q.1 id ((inBucket_iff c p.1 q.1 id).2 ⟨p.2, hm, q.2, hs, hid⟩)
    · intro p hp f hf
      exact hcompl p.1 p.2 (mget_eq_some_of_mem hndD (by simpa using hp)) f hf
    · intro p hp q hq
      have hm : mget c.indexes p.1 = some p.2 := mget_eq_some_of_mem hndIdx (by simpa using hp)
      have hs : mget p.2 q.1 = some q.2 :=
        mget_eq_some_of_mem (hwfI p hp).1 (by simpa using hq)
      exact hne p.1 p.2 q.1 q.2 hm hs

/- ─── Invariant preservation at the operation level ─── -/

theorem goodG_createOp (c : Col) (input : List (String × Value)) (id : String) (now : Int)
    (sync : Option SyncRes) (hg : GoodG c) (hfresh : mget c.documents id = none) :
    GoodG (createOp c input id now sync).1 := by
  unfold createOp
  cases sync with
  | none => exact goodG_create c id _ hg hfresh rfl
  | some sr =>
      cases sr with
      | ok => exact goodG_create c id _ hg hfresh rfl
      | falsy =>
          exact goodG_remove _ id _ (goodG_create c id _ hg hfresh rfl)
            (mget_mset_self _ _ _)
      | raise n =>
          exact goodG_remove _ id _ (goodG_create c id _ hg hfresh rfl)
            (mget_mset_self _ _ _)

theorem goodG_updateOp (c : Col) (id : String) (patch : List (String × Value)) (now : Int)
    (sync : Option SyncRes) (hg : GoodG c) : GoodG (updateOp c id patch now sync).1 := by
  unfold updateOp
  by_cases hid : id = ""
  · rw [if_pos hid]
    exact hg
  · rw [if_neg hid]
    cases hb : mget c.documents id with
    | none => exact hg
    | some before =>
        have hbid : before._id = id := hg.2.2.1 id before hb
        have hg1 := goodG_update c id before
          ⟨before._id, mset (spreadFields before.fields patch) "updatedAt" (.num now)⟩
          hg hb hbid
        cases sync with
        | none => exact hg1
        | some sr =>
            cases sr with
            | ok => exact hg1
            | falsy =>
                exact goodG_update _ id _ before hg1 (mget_mset_self _ _ _) hbid
            | raise n =>
                exact goodG_update _ id _ before hg1 (mget_mset_self _ _ _) hbid

theorem goodG_removeOp (c : Col) (id : String) (sync : Option SyncRes) (hg : GoodG c) :
    GoodG (removeOp c id sync).1 := by
  unfold removeOp
  by_cases hid : id = ""
  · rw [if_pos hid]
    exact hg
  · rw [if_neg hid]
    cases hb : mget c.documents id with
    | none => exact hg
    | some doc =>
        have hdid : doc._id = id := hg.2.2.1 id doc hb
        have hg1 := goodG_remove c id doc hg hb
        cases sync with
        | none => exact hg1
        | some sr =>
            cases sr with
            | ok => exact hg1
            | falsy =>
                exact goodG_create _ id doc hg1 (mget_mdelete_self _ _) hdid
            | raise n =>
                exact goodG_create _ id doc hg1 (mget_mdelete_self _ _) hdid

/-- A fully-validated `populate` loop succeeds. -/
theorem populateLoop_success (ds : List Doc) (hval : ∀ d ∈ ds, d._id ≠ "") :
    ∀ m : List (String × Doc), (populateLoop m ds).2 = true := by
  induction ds with
  | nil => intro m; rfl
  | cons d ds ih =>
      intro m
      unfold populateLoop
      rw [if_neg (hval d (List.mem_cons_self _ _))]
      exact ih (fun d2 h2 => hval d2 (List.mem_cons_of_mem _ h2)) _

/-- Along strict reachability the invariant holds at every state. -/
theorem goodG_reachable (fs : List String) (c : Col)
    (h : Reachable fs true c) : GoodG c := by
  induction h with
  | init hnd => exact goodG_init fs hnd
  | stepCreate input id now sync hid h ih => exact goodG_createOp _ input id now sync ih hid
  | stepUpdate id patch now sync h ih => exact goodG_updateOp _ id patch now sync ih
  | stepRemove id sync h ih => exact goodG_removeOp _ id sync ih
  | stepPopulate docs hval h ih =>
      exact goodG_populate _ docs ih (populateLoop_success _ (hval rfl) _)
  | stepClear h ih => exact goodG_clear _ ih

theorem bool_eq_of_iff {a b : Bool} (h : (a = true) ↔ (b = true)) : a = b := by
  cases a <;> cases b <;> simp_all

/-- A failed `create`'s revert restores every observation (in fact the store
list itself is restored exactly; only bucket-internal order could differ,
and for a fresh identifier even that is exact). -/
theorem sameView_create_revert (c : Col) (id : String) (d : Doc) (hg : GoodG c)
    (hfresh : mget c.documents id = none) (hid : d._id = id) :
    sameView ⟨c.indexed, mdelete (mset c.documents id d) id,
      indexRemoveDoc c.indexed (indexAddDoc c.indexed c.indexes d) d⟩ c := by
  obtain ⟨⟨hndF, hndD, hwfI⟩, hkeys, hbind, hsound, hcompl, hne⟩ := hg
  have hdocs : mdelete (mset c.documents id d) id = c.documents :=
    mdelete_mset_fresh _ _ _ ((mget_eq_none_iff _ _).1 hfresh)
  refine ⟨?_, ?_, ?_, ?_⟩
  · intro id2
    unfold read
    rw [show (⟨c.indexed, mdelete (mset c.documents id d) id,
      indexRemoveDoc c.indexed (indexAddDoc c.indexed c.indexes d) d⟩ : Col).documents =
      mdelete (mset c.documents id d) id from rfl, hdocs]
  · intro id2
    unfold existsDoc
    rw [show (⟨c.indexed, mdelete (mset c.documents id d) id,
      indexRemoveDoc c.indexed (indexAddDoc c.indexed c.indexes d) d⟩ : Col).documents =
      mdelete (mset c.documents id d) id from rfl, hdocs]
  · unfold count
    rw [show (⟨c.indexed, mdelete (mset c.documents id d) id,
      indexRemoveDoc c.indexed (indexAddDoc c.indexed c.indexes d) d⟩ : Col).documents =
      mdelete (mset c.documents id d) id from rfl, hdocs]
  · intro f v i
    refine bool_eq_of_iff ?_
    rw [inBucket_iff, inBucket_iff]
    rw [show (⟨c.indexed, mdelete (mset c.documents id d) id,
      indexRemoveDoc c.indexed (indexAddDoc c.indexed c.indexes d) d⟩ : Col).indexes =
      indexRemoveDoc c.indexed (indexAddDoc c.indexed c.indexes d) d from rfl]
    rw [idxMem_indexRemoveDoc _ _ _ hndF, idxMem_indexAddDoc _ _ _ hndF]
    constructor
    · rintro ⟨h1 | h1, h2⟩
      · exact h1
      · exact absurd h1 h2
    · intro h1
      refine ⟨Or.inl h1, ?_⟩
      rintro ⟨hf, hv, hi⟩
      have := hsound f v i ((inBucket_iff c f v i).2 h1)
      unfold soundAt at this
      rw [hi, hid, hfresh] at this
      cases this

/-- A failed `update`'s revert restores every observation (the store list
itself exactly; bucket membership pointwise). -/
theorem sameView_update_revert (c : Col) (id : String) (before after : Doc) (hg : GoodG c)
    (hb : mget c.documents id = some before) (haid : after._id = id) :
    sameView ⟨c.indexed, mset (mset c.documents id after) id before,
      indexUpdateDoc c.indexed (indexUpdateDoc c.indexed c.indexes before after)
        after before⟩ c := by
  obtain ⟨⟨hndF, hndD, hwfI⟩, hkeys, hbind, hsound, hcompl, hne⟩ := hg
  have hbid : before._id = id := hbind id before hb
  have hdocs : mset (mset c.documents id after) id before = c.documents := by
    rw [mset_mset_same, mset_self hb]
  refine ⟨?_, ?_, ?_, ?_⟩
  · intro id2
    unfold read
    rw [show (⟨c.indexed, mset (mset c.documents id after) id before,
      indexUpdateDoc c.indexed (indexUpdateDoc c.indexed c.indexes before after)
        after before⟩ : Col).documents =
      mset (mset c.documents id after) id before from rfl, hdocs]
  · intro id2
    unfold existsDoc
    rw [show (⟨c.indexed, mset (mset c.documents id after) id before,
      indexUpdateDoc c.indexed (indexUpdateDoc c.indexed c.indexes before after)
        after before⟩ : Col).documents =
      mset (mset c.documents id after) id before from rfl, hdocs]
  · unfold count
    rw [show (⟨c.indexed, mset (mset c.documents id after) id before,
      indexUpdateDoc c.indexed (indexUpdateDoc c.indexed c.indexes before after)
        after before⟩ : Col).documents =
      mset (mset c.documents id after) id before from rfl, hdocs]
  · intro f v i
    refine bool_eq_of_iff ?_
    rw [inBucket_iff, inBucket_iff]
    rw [show (⟨c.indexed, mset (mset c.documents id after) id before,
      indexUpdateDoc c.indexed (indexUpdateDoc c.indexed c.indexes before after)
        after before⟩ : Col).indexes =
      indexUpdateDoc c.indexed (indexUpdateDoc c.indexed c.indexes before after)
        after before from rfl]
    by_cases hf : f ∈ c.indexed
    · by_cases heq : getField before f = getField after f
      · rw [idxMem_indexUpdateDoc_eq _ _ _ _ _ _ _ hndF hf (Eq.symm heq),
          idxMem_indexUpdateDoc_eq _ _ _ _ _ _ _ hndF hf heq]
      · have hne2 : getField after f ≠ getField before f := fun hh => heq (Eq.symm hh)
        rw [idxMem_indexUpdateDoc_ne _ _ _ _ _ _ _ hndF hf hne2,
          idxMem_indexUpdateDoc_ne _ _ _ _ _ _ _ hndF hf heq]
        have hfactA : idxMem c.indexes f (getField before f) id :=
          (inBucket_iff c f _ _).1 (hcompl id before hb f hf)
        have hfactB : ¬ idxMem c.indexes f (getField after f) id := by
          intro hmem
          have h2 := hsound f (getField after f) id ((inBucket_iff c f _ _).2 hmem)
          simp only [soundAt, hb] at h2
          exact heq (of_decide_eq_true h2)
        constructor
        · rintro (⟨(⟨hx, -⟩ | hPa), hna⟩ | ⟨hvb, hib⟩)
          · exact hx
          · exact absurd hPa hna
          · rw [hvb, hib, hbid]
            exact hfactA
        · intro hx
          by_cases hpb : v = getField before f ∧ i = before._id
          · exact Or.inr hpb
          · refine Or.inl ⟨Or.inl ⟨hx, hpb⟩, ?_⟩
            rintro ⟨hva, hia⟩
            rw [hva, hia, haid] at hx
            exact hfactB hx
    · rw [idxMem_indexUpdateDoc_notMem _ _ _ _ _ _ _ hf,
        idxMem_indexUpdateDoc_notMem _ _ _ _ _ _ _ hf]

/-- A failed `remove`'s revert restores every observation `read` / `exists`
/ `count()` / bucket membership can make, although the re-inserted document
moves to the end of the store's insertion order. -/
theorem sameView_remove_revert (c : Col) (id : String) (doc : Doc) (hg : GoodG c)
    (hb : mget c.documents id = some doc) :
    sameView ⟨c.indexed, mset (mdelete c.documents id) id doc,
      indexAddDoc c.indexed (indexRemoveDoc c.indexed c.indexes doc) doc⟩ c := by
  obtain ⟨⟨hndF, hndD, hwfI⟩, hkeys, hbind, hsound, hcompl, hne⟩ := hg
  have hdid : doc._id = id := hbind id doc hb
  have hgetd : ∀ id2, mget (mset (mdelete c.documents id) id doc) id2 =
      mget c.documents id2 := by
    intro id2
    by_cases hi : id2 = id
    · subst hi
      rw [mget_mset_self, hb]
    · rw [mget_mset_ne _ _ _ _ hi, mget_mdelete_ne _ _ _ hi]
  refine ⟨?_, ?_, ?_, ?_⟩
  · intro id2
    unfold read
    exact hgetd id2
  · intro id2
    unfold existsDoc
    rw [show (⟨c.indexed, mset (mdelete c.documents id) id doc,
      indexAddDoc c.indexed (indexRemoveDoc c.indexed c.indexes doc) doc⟩ : Col).documents =
      mset (mdelete c.documents id) id doc from rfl, hgetd id2]
  · unfold count
    rw [show (⟨c.indexed, mset (mdelete c.documents id) id doc,
      indexAddDoc c.indexed (indexRemoveDoc c.indexed c.indexes doc) doc⟩ : Col).documents =
      mset (mdelete c.documents id) id doc from rfl]
    have hmem : id ∈ mkeys c.documents := mem_mkeys_of_mget hb
    have hnotmem : id ∉ mkeys (mdelete c.documents id) :=
      (mget_eq_none_iff _ _).1 (mget_mdelete_self _ _)
    rw [length_mset_fresh _ _ _ hnotmem]
    exact length_mdelete_of_mem _ _ hndD hmem
  · intro f v i
    refine bool_eq_of_iff ?_
    rw [inBucket_iff, inBucket_iff]
    rw [show (⟨c.indexed, mset (mdelete c.documents id) id doc,
      indexAddDoc c.indexed (indexRemoveDoc c.indexed c.indexes doc) doc⟩ : Col).indexes =
      indexAddDoc c.indexed (indexRemoveDoc c.indexed c.indexes doc) doc from rfl]
    rw [idxMem_indexAddDoc _ _ _ hndF, idxMem_indexRemoveDoc _ _ _ hndF]
    constructor
    · rintro (⟨h1, -⟩ | ⟨hf, hv, hi⟩)
      · exact h1
      · rw [hv, hi, hdid]
        exact (inBucket_iff c f _ _).1 (hcompl id doc hb f hf)
    · intro hx
      by_cases hp : f ∈ c.indexed ∧ v = getField doc f ∧ i = doc._id
      · exact Or.inr hp
      · exact Or.inl ⟨hx, hp⟩

/-- A failing `populate` loop stores exactly the documents preceding the
first one without an identifier. -/
theorem populateLoop_fail (ds : List Doc) :
    ∀ m : List (String × Doc), (∃ d ∈ ds, d._id = "") →
      (populateLoop m ds).2 = false ∧
      (populateLoop m ds).1 =
        (ds.takeWhile (fun d => !(decide (d._id = "")))).foldl
          (fun m2 d => mset m2 d._id d) m := by
  induction ds with
  | nil =>
      intro m h
      simp at h
  | cons d ds ih =>
      intro m h
      by_cases hd : d._id = ""
      · refine ⟨by simp [populateLoop, hd], ?_⟩
        simp [populateLoop, hd, List.takeWhile_cons]
      · obtain ⟨d2, hmem, hbad⟩ := h
        rcases List.mem_cons.1 hmem with rfl | hmem2
        · exact absurd hbad hd
        · obtain ⟨h1, h2⟩ := ih (mset m d._id d) ⟨d2, hmem2, hbad⟩
          refine ⟨by simpa [populateLoop, hd] using h1, ?_⟩
          simp only [populateLoop, if_neg hd, List.takeWhile_cons, hd]
          simpa [hd] using h2

/-- `find?` is the head of `filter`. -/
theorem find?_eq_head?_filter {α : Type} (p : α → Bool) (l : List α) :
    l.find? p = (l.filter p).head? := by
  induction l with
  | nil => rfl
  | cons a rest ih =>
      rw [List.find?_cons, List.filter_cons]
      cases ha : p a
      · rw [ih]
        simp
      · simp

/-- Filtering by an always-true predicate is the identity. -/
theorem filter_true_id {α : Type} (p : α → Bool) (l : List α)
    (h : ∀ a, p a = true) : l.filter p = l := by
  induction l with
  | nil => rfl
  | cons a rest ih => simp [h, ih]

/-- Indexing into `mapIdx`. -/
theorem getElem?_mapIdx {α β : Type} (g : Nat → α → β) (l : List α) (r : Nat) :
    (l.mapIdx g)[r]? = (l[r]?).map (g r) := by
  induction l generalizing g r with
  | nil => simp
  | cons a rest ih =>
      cases r with
      | zero => simp [List.mapIdx_cons]
      | succ n =>
          simp only [List.mapIdx_cons, List.getElem?_cons_succ]
          exact ih (fun i x => g (i + 1) x) n

/-- C1: the claim says a failing synchronized write restores the document
store to its exact pre-mutation state. Counterexample: on a failed `remove`
the revert re-inserts the document with `Map.set`, which appends it at the
end of the store's insertion order, so the store (and the order `query`
enumerates it in) differs from the pre-call state even though the starting
collection satisfies the invariant. -/
theorem c1_counterexample :
    good c1Col ∧
    (removeOp c1Col "a" (some SyncRes.falsy)).1.documents ≠ c1Col.documents ∧
    query (removeOp c1Col "a" (some SyncRes.falsy)).1 [] none ≠ query c1Col [] none := by
  exact ⟨by decide, by decide, by decide⟩

/-- C1 (amended): for every synchronized write (create, update, or remove)
on an invariant-satisfying collection whose synchronizer returns falsy or
throws, the operation reverts observationally: the final state — and
already the state at which every emitted `syncError` event fires — agrees
with the pre-call state on `read`, `exists`, `count()` and on membership of
every index bucket, and the caller observes the operation-tagged
synchronization error. (The store's insertion order is not always restored
exactly: a failed `remove` re-inserts the document at the end.) -/
theorem c1_failed_sync_revert (c : Col) (op : WriteOp) (sr : SyncRes)
    (hg : good c) (hp : writePre c op) (hf : sr ≠ SyncRes.ok) :
    sameView (runWrite c op (some sr)).1 c ∧
    (runWrite c op (some sr)).2.2 = Except.error (Err.tagged (opName op)) ∧
    ∀ p ∈ (runWrite c op (some sr)).2.1,
      isSyncErrorEvent p.1 = true ∧ sameView p.2 c := by
  have hgG := (good_iff c).1 hg
  cases op with
  | createW input id now =>
      have hfresh : mget c.documents id = none := hp
      have hsv := sameView_create_revert c id
        ⟨id, mset (mset input "createdAt" (.num now)) "updatedAt" (.num now)⟩
        hgG hfresh rfl
      cases sr with
      | ok => exact absurd rfl hf
      | falsy =>
          simp only [runWrite, createOp, opName]
          refine ⟨hsv, rfl, ?_⟩
          intro p hp2
          rcases List.mem_cons.1 hp2 with rfl | hp3
          · exact ⟨rfl, hsv⟩
          rcases List.mem_cons.1 hp3 with rfl | hp4
          · exact ⟨rfl, hsv⟩
          · exact absurd hp4 (List.not_mem_nil p)
      | raise n =>
          simp only [runWrite, createOp, opName]
          refine ⟨hsv, rfl, ?_⟩
          intro p hp2
          rcases List.mem_cons.1 hp2 with rfl | hp3
          · exact ⟨rfl, hsv⟩
          · exact absurd hp3 (List.not_mem_nil p)
  | updateW id patch now =>
      obtain ⟨hne0, hsome⟩ := hp
      cases hb : mget c.documents id with
      | none => rw [hb] at hsome; cases hsome
      | some before =>
          have hbid : before._id = id := hgG.2.2.1 id before hb
          have hsv := sameView_update_revert c id before
            ⟨before._id, mset (spreadFields before.fields patch) "updatedAt" (.num now)⟩
            hgG hb hbid
          cases sr with
          | ok => exact absurd rfl hf
          | falsy =>
              simp only [runWrite, updateOp, if_neg hne0, hb, opName]
              refine ⟨hsv, rfl, ?_⟩
              intro p hp2
              rcases List.mem_cons.1 hp2 with rfl | hp3
              · exact ⟨rfl, hsv⟩
              rcases List.mem_cons.1 hp3 with rfl | hp4
              · exact ⟨rfl, hsv⟩
              · exact absurd hp4 (List.not_mem_nil p)
          | raise n =>
              simp only [runWrite, updateOp, if_neg hne0, hb, opName]
              refine ⟨hsv, rfl, ?_⟩
              intro p hp2
              rcases List.mem_cons.1 hp2 with rfl | hp3
              · exact ⟨rfl, hsv⟩
              · exact absurd hp3 (List.not_mem_nil p)
  | removeW id =>
      obtain ⟨hne0, hsome⟩ := hp
      cases hb : mget c.documents id with
      | none => rw [hb] at hsome; cases hsome
      | some doc =>
          have hsv := sameView_remove_revert c id doc hgG hb
          cases sr with
          | ok => exact absurd rfl hf
          | falsy =>
              simp only [runWrite, removeOp, if_neg hne0, hb, opName]
              refine ⟨hsv, rfl, ?_⟩
              intro p hp2
              rcases List.mem_cons.1 hp2 with rfl | hp3
              · exact ⟨rfl, hsv⟩
              rcases List.mem_cons.1 hp3 with rfl | hp4
              · exact ⟨rfl, hsv⟩
              · exact absurd hp4 (List.not_mem_nil p)
          | raise n =>
              simp only [runWrite, removeOp, if_neg hne0, hb, opName]
              refine ⟨hsv, rfl, ?_⟩
              intro p hp2
              rcases List.mem_cons.1 hp2 with rfl | hp3
              · exact ⟨rfl, hsv⟩
              · exact absurd hp3 (List.not_mem_nil p)

/-- C1 witness: the revert theorem applied to a concrete failed remove. -/
theorem c1_failed_sync_revert_witness :
    read (runWrite c1Col (WriteOp.removeW "a") (some SyncRes.falsy)).1 "a" = read c1Col "a" ∧
    (runWrite c1Col (WriteOp.removeW "a") (some SyncRes.falsy)).2.2 =
      Except.error (Err.tagged "remove") :=
  ⟨(c1_failed_sync_revert c1Col (WriteOp.removeW "a") SyncRes.falsy (by decide)
      ⟨by decide, by decide⟩ (by decide)).1.1 "a",
    (c1_failed_sync_revert c1Col (WriteOp.removeW "a") SyncRes.falsy (by decide)
      ⟨by decide, by decide⟩ (by decide)).2.1⟩

/-- C2: the claim says `populate` fails before any document from the call is
stored. Counterexample: the loop validates each element just before storing
it, so the element preceding the invalid one is already in the (previously
empty) store when the call throws. -/
theorem c2_counterexample :
    read (populateOp (initCol []) [⟨"a", [("x", Value.num 1)]⟩, ⟨"", []⟩]).1 "a" =
      some ⟨"a", [("x", Value.num 1)]⟩ ∧
    read (initCol []) "a" = none ∧
    (populateOp (initCol []) [⟨"a", [("x", Value.num 1)]⟩, ⟨"", []⟩]).2.2 =
      Except.error (Err.validation "Every document must have an _id for populate.") :=
  ⟨rfl, rfl, rfl⟩

/-- C2 (amended): when some element of a `populate` call lacks an
identifier, the call throws a validation error and emits no event, the
indexes are left untouched (not rebuilt), and the store holds exactly the
previous contents plus the elements preceding the first invalid one. -/
theorem c2_populate_midway (c : Col) (docs : List Doc)
    (h : ∃ d ∈ docs, d._id = "") :
    (populateOp c docs).1.documents =
      (docs.takeWhile (fun d => !(decide (d._id = "")))).foldl
        (fun m d => mset m d._id d) c.documents ∧
    (populateOp c docs).1.indexes = c.indexes ∧
    (populateOp c docs).2.1 = [] ∧
    (populateOp c docs).2.2 =
      Except.error (Err.validation "Every document must have an _id for populate.") := by
  obtain ⟨hfail, hstate⟩ := populateLoop_fail docs c.documents h
  simp only [populateOp, hfail, Bool.false_eq_true, if_false]
  simp [hstate]

/-- C2 witness: the amended statement at a concrete failing call. -/
theorem c2_populate_midway_witness :
    (populateOp (initCol []) [⟨"a", [("x", Value.num 1)]⟩, ⟨"", []⟩]).1.documents =
      (([⟨"a", [("x", Value.num 1)]⟩, ⟨"", []⟩] : List Doc).takeWhile
        (fun d => !(decide (d._id = "")))).foldl (fun m d => mset m d._id d)
        (initCol []).documents ∧
    (populateOp (initCol []) [⟨"a", [("x", Value.num 1)]⟩, ⟨"", []⟩]).1.indexes =
      (initCol []).indexes :=
  ⟨(c2_populate_midway (initCol []) _ ⟨⟨"", []⟩, by decide, rfl⟩).1,
   (c2_populate_midway (initCol []) _ ⟨⟨"", []⟩, by decide, rfl⟩).2.1⟩

/-- C4: the claim says the index invariant holds after every sequence of
collection operations, including populate. Counterexample: a `populate`
that throws on a missing identifier has already stored the valid prefix but
never rebuilds the indexes, so a stored document's identifier is in no
bucket. -/
theorem c4_counterexample :
    Reachable ["f"] false
      (populateOp (initCol ["f"]) [⟨"a", [("f", Value.num 1)]⟩, ⟨"", []⟩]).1 ∧
    ¬ good (populateOp (initCol ["f"]) [⟨"a", [("f", Value.num 1)]⟩, ⟨"", []⟩]).1 := by
  constructor
  · exact Reachable.stepPopulate _ (fun h => absurd h (by decide))
      (Reachable.init (by decide))
  · decide

/-- C4 (amended): after every sequence of collection operations — create,
update, remove, clear, the revert paths of failed synchronized writes, and
populate calls whose documents all carry identifiers — every stored
document's identifier appears in exactly the bucket matching its current
value for every indexed field and in no other bucket, and no empty bucket
exists. -/
theorem c4_index_invariant (fs : List String) (c : Col)
    (h : Reachable fs true c) : good c :=
  (good_iff c).2 (goodG_reachable fs c h)

/-- C4 witness: the invariant at the state reached by a create followed by
a failed (reverted) remove. -/
theorem c4_index_invariant_witness :
    good (removeOp (createOp (initCol ["f"]) [("f", Value.num 1)] "id1" 0 none).1
      "id1" (some SyncRes.falsy)).1 :=
  c4_index_invariant ["f"] _
    (Reachable.stepRemove "id1" (some SyncRes.falsy)
      (Reachable.stepCreate [("f", Value.num 1)] "id1" 0 none (by decide)
        (Reachable.init (by decide))))

/-- C8: the claim says every failing synchronized write fires exactly one
`syncError` event. Counterexample: when the synchronizer merely returns
falsy, the code emits a `syncError`, throws the tagged error, and the very
same `try`'s `catch` intercepts that throw and emits a second `syncError` —
two events fire. -/
theorem c8_counterexample :
    ((createOp (initCol []) [] "z" 0 (some SyncRes.falsy)).2.1.filter
      (fun p => isSyncErrorEvent p.1)).length = 2 ∧
    ¬ ((createOp (initCol []) [] "z" 0 (some SyncRes.falsy)).2.1.filter
      (fun p => isSyncErrorEvent p.1)).length = 1 :=
  ⟨rfl, by decide⟩

/-- C8 (amended): a synchronizer that throws/rejects yields exactly one
`syncError` event carrying the original cause; one that returns falsy
yields exactly two `syncError` events — the first with the generic
synthesized cause, the second carrying the operation-tagged error — and in
every case the error surfaced to the caller is the stable operation-tagged
synchronization error. -/
theorem c8_sync_error_events (c : Col) (op : WriteOp) (hp : writePre c op) :
    ((runWrite c op (some SyncRes.falsy)).2.1.map Prod.fst =
      [Event.syncErrorE (opName op) Err.syncFalse (opId op),
       Event.syncErrorE (opName op) (Err.tagged (opName op)) (opId op)]) ∧
    (runWrite c op (some SyncRes.falsy)).2.2 =
      Except.error (Err.tagged (opName op)) ∧
    ∀ n : Nat,
      ((runWrite c op (some (SyncRes.raise n))).2.1.map Prod.fst =
        [Event.syncErrorE (opName op) (Err.external n) (opId op)]) ∧
      (runWrite c op (some (SyncRes.raise n))).2.2 =
        Except.error (Err.tagged (opName op)) := by
  cases op with
  | createW input id now =>
      exact ⟨rfl, rfl, fun n => ⟨rfl, rfl⟩⟩
  | updateW id patch now =>
      obtain ⟨hne0, hsome⟩ := hp
      cases hb : mget c.documents id with
      | none => rw [hb] at hsome; cases hsome
      | some before =>
          simp only [runWrite, updateOp, if_neg hne0, hb, opName, opId]
          exact ⟨rfl, rfl, fun n => ⟨rfl, rfl⟩⟩
  | removeW id =>
      obtain ⟨hne0, hsome⟩ := hp
      cases hb : mget c.documents id with
      | none => rw [hb] at hsome; cases hsome
      | some doc =>
          simp only [runWrite, removeOp, if_neg hne0, hb, opName, opId]
          exact ⟨rfl, rfl, fun n => ⟨rfl, rfl⟩⟩

/-- C8 witness: the event shape for a concrete failed update. -/
theorem c8_sync_error_events_witness :
    (runWrite c1Col (WriteOp.updateW "a" [("kind", Value.num 3)] 5)
      (some SyncRes.falsy)).2.1.map Prod.fst =
      [Event.syncErrorE "update" Err.syncFalse "a",
       Event.syncErrorE "update" (Err.tagged "update") "a"] :=
  (c8_sync_error_events c1Col (WriteOp.updateW "a" [("kind", Value.num 3)] 5)
    ⟨by decide, by decide⟩).1

/-- C5: the claim says `read` returns a copy or immutable view, so mutating
the returned value does not change subsequent reads. Counterexample: `read`
returns `documents.get(id) ?? null`, the live stored reference — mutating
through it changes what the next `read` of the same identifier denotes. -/
theorem c5_counterexample :
    readRef c5Col "a" = some 0 ∧
    readRef (callerMutate c5Col 0 c5Mut) "a" = some 0 ∧
    derefDoc (callerMutate c5Col 0 c5Mut) 0 ≠ derefDoc c5Col 0 :=
  ⟨rfl, rfl, by decide⟩

/-- C5 (amended): `read` returns the live stored instance — the same heap
reference before and after a caller mutation through it — so the mutation
is visible to every subsequent read of that identifier. -/
theorem c5_read_alias (c : RefCol) (id : String) (r : Nat) (f : Doc → Doc)
    (h : readRef c id = some r) :
    readRef (callerMutate c r f) id = some r ∧
    derefDoc (callerMutate c r f) r = (derefDoc c r).map f := by
  refine ⟨h, ?_⟩
  unfold derefDoc callerMutate
  rw [show (⟨c.heap.mapIdx (fun i d => if i = r then f d else d), c.store⟩ : RefCol).heap =
    c.heap.mapIdx (fun i d => if i = r then f d else d) from rfl]
  rw [getElem?_mapIdx]
  cases c.heap[r]? <;> simp

/-- C5 witness: the aliasing statement at the concrete reference store. -/
theorem c5_read_alias_witness :
    readRef (callerMutate c5Col 0 c5Mut) "a" = some 0 ∧
    derefDoc (callerMutate c5Col 0 c5Mut) 0 = (derefDoc c5Col 0).map c5Mut :=
  c5_read_alias c5Col "a" 0 c5Mut rfl

/-- C7: the claim says an unrecognized operator name makes the field
condition evaluate to non-match regardless of the operand and value types.
Counterexample: with a numeric operand and a numeric field value the
unrecognized operator falls into the numeric block and is skipped — the
condition evaluates to a match. -/
theorem c7_counterexample :
    whereChecker "age" (Cond.ops [("foo", Operand.val (Value.num 3))]) c7Doc = true := rfl

/-- C7 (amended): an operator name outside the recognized set never throws
and evaluates as follows: the entry is skipped (as if it passed) when its
operand is undefined, or when operand and field value are both numbers or
both strings; in every other case the whole field condition evaluates to
non-match. -/
theorem c7_unknown_operator (prop : String) (d : Doc) (op : String) (operand : Operand)
    (rest : List (String × Operand))
    (h : op ∉ ["eq", "notEq", "gt", "gte", "lt", "lte", "includes", "startsWith",
      "endsWith", "match", "in"]) :
    whereChecker prop (Cond.ops ((op, operand) :: rest)) d =
      (ignoredCompat (getField d prop) operand && whereChecker prop (Cond.ops rest) d) := by
  simp only [List.mem_cons, List.mem_singleton, not_or] at h
  obtain ⟨h1, h2, h3, h4, h5, h6, h7, h8, h9, h10, h11⟩ := h
  have hEntry : ∀ v : Value, opEntry v op operand = ignoredCompat v operand := by
    intro v
    cases operand with
    | undef => rfl
    | regex r => simp [opEntry, ignoredCompat, h10, h1, h2]
    | arr l => simp [opEntry, ignoredCompat, h11, h1, h2]
    | val w =>
        cases v <;> cases w <;>
          simp [opEntry, ignoredCompat, h1, h2, h3, h4, h5, h6, h7, h8, h9]
  show (opEntry (getField d prop) op operand && opsCheck (getField d prop) rest) =
    (ignoredCompat (getField d prop) operand && opsCheck (getField d prop) rest)
  rw [hEntry]

/-- C7 witness: the amended statement at the counterexample's input. -/
theorem c7_unknown_operator_witness :
    whereChecker "age" (Cond.ops [("foo", Operand.val (Value.num 3))]) c7Doc =
      (ignoredCompat (getField c7Doc "age") (Operand.val (Value.num 3)) &&
        whereChecker "age" (Cond.ops []) c7Doc) :=
  c7_unknown_operator "age" c7Doc "foo" (Operand.val (Value.num 3)) [] (by decide)

/-- C10: a negative `skip` and a negative `limit` are each silently treated
as absent: the result equals the result of the same query without that
option (no error, no empty result). -/
theorem c10_negative_skip_limit (c : Col) (w : Where)
    (ob : Option (List (String × String))) (s l : Int) :
    (s < 0 → ∀ lim : Option Int,
      query c w (some ⟨ob, some s, lim⟩) = query c w (some ⟨ob, none, lim⟩)) ∧
    (l < 0 → ∀ sk : Option Int,
      query c w (some ⟨ob, sk, some l⟩) = query c w (some ⟨ob, sk, none⟩)) := by
  constructor
  · intro hs lim
    simp only [query, applyOptions]
    rw [if_neg (by omega : ¬ s > 0)]
  · intro hl sk
    simp only [query, applyOptions]
    rw [if_neg (by omega : ¬ l ≥ 0)]

/-- C10 witness: a concrete negative skip and negative limit. -/
theorem c10_negative_skip_limit_witness :
    query c1Col [] (some ⟨none, some (-1), none⟩) =
      query c1Col [] (some ⟨none, none, none⟩) ∧
    query c1Col [] (some ⟨none, none, some (-2)⟩) =
      query c1Col [] (some ⟨none, none, none⟩) :=
  ⟨(c10_negative_skip_limit c1Col [] none (-1) (-2)).1 (by decide) none,
   (c10_negative_skip_limit c1Col [] none (-1) (-2)).2 (by decide) none⟩

/-- C6: the claim says `query` without sort options returns matches in the
store's insertion order also when index-assisted, and `findOne` returns the
first element of that sequence. Counterexample: an `in` query on an indexed
field enumerates the candidate union in the order of the `in` list's
buckets, which reverses the insertion order here, and `findOne` (which
always scans the store) disagrees with the head of the index-assisted
result. -/
theorem c6_counterexample :
    good c1Col ∧
    query c1Col [("kind", Cond.ops [("in", Operand.arr [Value.num 2, Value.num 1])])]
      none ≠
      fullScan c1Col [("kind", Cond.ops [("in", Operand.arr [Value.num 2, Value.num 1])])] ∧
    findOne c1Col [("kind", Cond.ops [("in", Operand.arr [Value.num 2, Value.num 1])])] ≠
      (query c1Col [("kind", Cond.ops [("in", Operand.arr [Value.num 2, Value.num 1])])]
        none).head? :=
  ⟨by decide, by decide, by decide⟩

/-- C6 (amended): when no index-derived candidate set exists, `query`
without options returns the matches in the store's insertion order (the
full scan), and `findOne` always returns the first match in store insertion
order — the head of the full scan — even when an index-assisted `query`
would enumerate candidates in a different order. -/
theorem c6_store_order (c : Col) (w : Where) :
    (getCandidateIds c w = none → query c w none = fullScan c w) ∧
    findOne c w = (fullScan c w).head? := by
  have hempty : w.isEmpty = true → ∀ d : Doc, matchesWhere w d = true := by
    intro hw d
    have : w = [] := List.isEmpty_iff.1 hw
    rw [this]
    rfl
  constructor
  · intro hcand
    simp only [query]
    cases hw : w.isEmpty
    · rw [hcand]
      rfl
    · unfold fullScan
      rw [filter_true_id _ _ (fun d => hempty hw d)]
      rfl
  · unfold findOne fullScan
    cases hw : w.isEmpty
    · rw [if_neg (by simp [hw])]
      exact find?_eq_head?_filter _ _
    · rw [if_pos rfl, filter_true_id _ _ (fun d => hempty hw d)]

/-- C6 witness: the amended statement at a query on a non-indexed field. -/
theorem c6_store_order_witness :
    query c1Col [("name", Cond.lit (Value.str "x"))] none =
      fullScan c1Col [("name", Cond.lit (Value.str "x"))] ∧
    findOne c1Col [("name", Cond.lit (Value.str "x"))] =
      (fullScan c1Col [("name", Cond.lit (Value.str "x"))]).head? :=
  ⟨(c6_store_order c1Col [("name", Cond.lit (Value.str "x"))]).1 (by decide),
   (c6_store_order c1Col [("name", Cond.lit (Value.str "x"))]).2⟩

/- ─── C3 infrastructure: candidate sets cover every match ─── -/

theorem opsCheck_all {value : Value} {es : List (String × Operand)}
    (h : opsCheck value es = true) : ∀ e ∈ es, opEntry value e.1 e.2 = true := by
  induction es with
  | nil => intro e he; simp at he
  | cons e0 rest ih =>
      obtain ⟨op, o⟩ := e0
      obtain ⟨h1, h2⟩ := Bool.and_eq_true_iff.1 h
      intro e he
      rcases List.mem_cons.1 he with rfl | he2
      · exact h1
      · exact ih h2 e he2

theorem matchesWhere_all {w : Where} {d : Doc} (h : matchesWhere w d = true) :
    ∀ p ∈ w, whereChecker p.1 p.2 d = true := by
  intro p hp
  exact List.all_eq_true.1 h p hp

/-- Perm of stable insertion. -/
theorem insertOrd_perm {α : Type} (le : α → α → Bool) (x : α) (l : List α) :
    (insertOrd le x l).Perm (x :: l) := by
  induction l with
  | nil => exact List.Perm.refl _
  | cons y ys ih =>
      by_cases h : le x y
      · rw [insertOrd, if_pos h]
      · rw [insertOrd, if_neg h]
        exact (ih.cons y).trans (List.Perm.swap x y ys)

theorem insSort_perm {α : Type} (le : α → α → Bool) (l : List α) :
    (insSort le l).Perm l := by
  induction l with
  | nil => exact List.Perm.refl _
  | cons x xs ih =>
      exact (insertOrd_perm le x (insSort le xs)).trans (ih.cons x)

/-- Membership in the pairwise intersection of a nonempty list of sets. -/
theorem mem_intersectList (l : List (List String)) (hl : l ≠ []) (id : String) :
    id ∈ intersectList l ↔ ∀ S ∈ l, id ∈ S := by
  cases l with
  | nil => exact absurd rfl hl
  | cons s rest =>
      unfold intersectList
      have hfold : ∀ (rest2 : List (List String)) (s2 : List String),
          id ∈ rest2.foldl (fun r next => r.filter (fun i2 => decide (i2 ∈ next))) s2 ↔
            id ∈ s2 ∧ ∀ S ∈ rest2, id ∈ S := by
        intro rest2
        induction rest2 with
        | nil => intro s2; simp
        | cons t ts ih =>
            intro s2
            rw [List.foldl_cons, ih]
            simp only [List.mem_filter, decide_eq_true_iff, List.mem_cons]
            constructor
            · rintro ⟨⟨h1, h2⟩, h3⟩
              refine ⟨h1, ?_⟩
              rintro S (rfl | hS)
              · exact h2
              · exact h3 S hS
            · rintro ⟨h1, h2⟩
              exact ⟨⟨h1, h2 t (Or.inl rfl)⟩, fun S hS => h2 S (Or.inr hS)⟩
      rw [hfold]
      constructor
      · rintro ⟨h1, h2⟩
        rintro S hS
        rcases List.mem_cons.1 hS with rfl | hS2
        · exact h1
        · exact h2 S hS2
      · intro h
        exact ⟨h s (List.mem_cons_self _ _), fun S hS => h S (List.mem_cons_of_mem _ hS)⟩

/-- Membership in the bucket union that an `in` clause builds. -/
theorem mem_unionFold (bucket : Bucket) (l : List Value) (i : String) :
    i ∈ l.foldl (fun u v =>
        ((mget bucket v).getD []).foldl (fun u2 id => saddE u2 id) u) [] ↔
      ∃ v ∈ l, i ∈ (mget bucket v).getD [] := by
  have haddAll : ∀ (s u : List String),
      i ∈ s.foldl (fun u2 id => saddE u2 id) u ↔ i ∈ u ∨ i ∈ s := by
    intro s
    induction s with
    | nil => intro u; simp
    | cons a as ih =>
        intro u
        rw [List.foldl_cons, ih]
        rw [mem_saddE]
        constructor
        · rintro ((h | rfl) | h)
          · exact Or.inl h
          · exact Or.inr (List.mem_cons_self _ _)
          · exact Or.inr (List.mem_cons_of_mem _ h)
        · rintro (h | h)
          · exact Or.inl (Or.inl h)
          · rcases List.mem_cons.1 h with rfl | h2
            · exact Or.inl (Or.inr rfl)
            · exact Or.inr h2
  have hgen : ∀ (l2 : List Value) (u : List String),
      i ∈ l2.foldl (fun u v =>
          ((mget bucket v).getD []).foldl (fun u2 id => saddE u2 id) u) u ↔
        i ∈ u ∨ ∃ v ∈ l2, i ∈ (mget bucket v).getD [] := by
    intro l2
    induction l2 with
    | nil => intro u; simp
    | cons v vs ih =>
        intro u
        rw [List.foldl_cons, ih, haddAll]
        constructor
        · rintro ((h | h) | ⟨v2, hv2, h⟩)
          · exact Or.inl h
          · exact Or.inr ⟨v, List.mem_cons_self _ _, h⟩
          · exact Or.inr ⟨v2, List.mem_cons_of_mem _ hv2, h⟩
        · rintro (h | ⟨v2, hv2, h⟩)
          · exact Or.inl (Or.inl h)
          · rcases List.mem_cons.1 hv2 with rfl | hv3
            · exact Or.inl (Or.inr h)
            · exact Or.inr ⟨v2, hv3, h⟩
  rw [hgen]
  simp

/-- Every stored document matching the whole where-clause is in the
candidate set each clause entry contributes. -/
theorem candidate_complete (c : Col) (hg : GoodG c) (k : String) (cond : Cond)
    (S : List String) (hS : candidateFor c (k, cond) = some S)
    (i : String) (d : Doc) (hget : mget c.documents i = some d)
    (hwc : whereChecker k cond d = true) : i ∈ S := by
  obtain ⟨-, hkeys, -, -, hcompl, -⟩ := hg
  unfold candidateFor at hS
  cases hbk : mget c.indexes k with
  | none => rw [hbk] at hS; cases hS
  | some bucket =>
      rw [hbk] at hS
      have hkin : k ∈ c.indexed := hkeys ▸ mem_mkeys_of_mget hbk
      have hbmem : ∀ v : Value, getField d k = v → i ∈ (mget bucket v).getD [] := by
        rintro v rfl
        obtain ⟨m, hm, s, hs, hi⟩ :=
          (inBucket_iff c k (getField d k) i).1 (hcompl i d hget k hkin)
        rw [hbk] at hm
        obtain rfl : bucket = m := by injection hm
        rw [hs]
        exact hi
      cases cond with
      | regex r =>
          simp only [candidateFor, hbk] at hS
          cases hS
      | lit v =>
          simp only [candidateFor, hbk] at hS
          obtain rfl : (mget bucket v).getD [] = S := Option.some.inj hS
          have hv : getField d k = v := of_decide_eq_true hwc
          exact hbmem v hv
      | ops es =>
          have hall := @opsCheck_all _ es hwc
          cases heq : mget es "eq" with
          | some o =>
              cases o with
              | val v =>
                  simp only [candidateFor, hbk, heq] at hS
                  obtain rfl : (mget bucket v).getD [] = S := Option.some.inj hS
                  have hentry := hall ("eq", .val v) (mem_of_mget_eq_some heq)
                  have hv : getField d k = v := of_decide_eq_true (by
                    rw [show opEntry (getField d k) "eq" (.val v) =
                      decide (getField d k = v) from rfl] at hentry
                    exact hentry)
                  exact hbmem v hv
              | regex r =>
                  have hentry := hall ("eq", .regex r) (mem_of_mget_eq_some heq)
                  rw [show opEntry (getField d k) "eq" (.regex r) = false from rfl] at hentry
                  cases hentry
              | arr l =>
                  have hentry := hall ("eq", .arr l) (mem_of_mget_eq_some heq)
                  rw [show opEntry (getField d k) "eq" (.arr l) = false from rfl] at hentry
                  cases hentry
              | undef =>
                  cases hin : mget es "in" with
                  | none =>
                      simp only [candidateFor, hbk, heq, hin] at hS
                      cases hS
                  | some o2 =>
                      cases o2 with
                      | arr l =>
                          simp only [candidateFor, hbk, heq, hin] at hS
                          have hentry := hall ("in", .arr l) (mem_of_mget_eq_some hin)
                          rw [show opEntry (getField d k) "in" (.arr l) =
                            decide (getField d k ∈ l) from rfl] at hentry
                          have hvl : getField d k ∈ l := of_decide_eq_true hentry
                          obtain rfl : l.foldl (fun u v =>
                              ((mget bucket v).getD []).foldl
                                (fun u2 id => saddE u2 id) u) [] = S := Option.some.inj hS
                          exact (mem_unionFold bucket l i).2
                            ⟨getField d k, hvl, hbmem _ rfl⟩
                      | undef =>
                          simp only [candidateFor, hbk, heq, hin] at hS
                          cases hS
                      | val v =>
                          simp only [candidateFor, hbk, heq, hin] at hS
                          cases hS
                      | regex r =>
                          simp only [candidateFor, hbk, heq, hin] at hS
                          cases hS
          | none =>
              cases hin : mget es "in" with
              | none =>
                      simp only [candidateFor, hbk, heq, hin] at hS
                      cases hS
              | some o2 =>
                  cases o2 with
                  | arr l =>
                      simp only [candidateFor, hbk, heq, hin] at hS
                      have hentry := hall ("in", .arr l) (mem_of_mget_eq_some hin)
                      rw [show opEntry (getField d k) "in" (.arr l) =
                        decide (getField d k ∈ l) from rfl] at hentry
                      have hvl : getField d k ∈ l := of_decide_eq_true hentry
                      obtain rfl : l.foldl (fun u v =>
                          ((mget bucket v).getD []).foldl
                            (fun u2 id => saddE u2 id) u) [] = S := Option.some.inj hS
                      exact (mem_unionFold bucket l i).2 ⟨getField d k, hvl, hbmem _ rfl⟩
                  | undef =>
                          simp only [candidateFor, hbk, heq, hin] at hS
                          cases hS
                  | val v =>
                          simp only [candidateFor, hbk, heq, hin] at hS
                          cases hS
                  | regex r =>
                          simp only [candidateFor, hbk, heq, hin] at hS
                          cases hS

/-- C3: for every where-clause and every collection state satisfying the
index invariant, the set of documents an index-assisted `query` returns
equals the set a full-scan evaluation of the same where-clause returns:
index configuration never changes which documents match. -/
theorem c3_query_equiv (c : Col) (w : Where) (hg : good c) (d : Doc) :
    d ∈ query c w none ↔ d ∈ fullScan c w := by
  have hgG := (good_iff c).1 hg
  obtain ⟨⟨hndF, hndD, hwfI⟩, hkeys, hbind, hsound, hcompl, hne⟩ := (good_iff c).1 hg
  simp only [query]
  cases hw : w.isEmpty
  · cases hcand : getCandidateIds c w with
    | none => exact Iff.rfl
    | some cand =>
        have hstruct : cand = intersectList (insSort
            (fun a b => a.length ≤ b.length) (w.filterMap (candidateFor c))) ∧
            (w.filterMap (candidateFor c)) ≠ [] := by
          simp only [getCandidateIds] at hcand
          by_cases h1 : c.indexed.isEmpty
          · rw [if_pos h1] at hcand; cases hcand
          · rw [if_neg h1] at hcand
            by_cases h2 : (w.filterMap (candidateFor c)).isEmpty
            · rw [if_pos h2] at hcand; cases hcand
            · rw [if_neg h2] at hcand
              refine ⟨(Option.some.inj hcand).symm, fun hh => h2 (by simp [hh])⟩
        constructor
        · intro hd
          obtain ⟨id2, hid2, hf⟩ := List.mem_filterMap.1 hd
          cases hdoc : mget c.documents id2 with
          | none =>
              simp only [hdoc] at hf
              cases hf
          | some d2 =>
              simp only [hdoc] at hf
              by_cases hm : matchesWhere w d2 = true
              · rw [if_pos hm] at hf
                obtain rfl : d2 = d := Option.some.inj hf
                refine List.mem_filter.2 ⟨?_, hm⟩
                unfold mvalues
                exact List.mem_map_of_mem Prod.snd (mem_of_mget_eq_some hdoc)
              · rw [if_neg hm] at hf
                cases hf
        · intro hd
          obtain ⟨hdv, hdm⟩ := List.mem_filter.1 hd
          obtain ⟨p, hp, hp2⟩ := List.mem_map.1 hdv
          have hgetd : mget c.documents p.1 = some d := by
            refine mget_eq_some_of_mem hndD ?_
            rw [← hp2]
            simpa using hp
          refine List.mem_filterMap.2 ⟨p.1, ?_, ?_⟩
          · rw [hstruct.1]
            have hsortne : insSort (fun a b : List String => a.length ≤ b.length)
                (w.filterMap (candidateFor c)) ≠ [] := by
              intro hnil
              have hl := (insSort_perm (fun a b : List String => a.length ≤ b.length)
                (w.filterMap (candidateFor c))).length_eq
              rw [hnil] at hl
              exact hstruct.2 (List.length_eq_zero.1 hl.symm)
            rw [mem_intersectList _ hsortne]
            intro S hS
            have hS2 : S ∈ w.filterMap (candidateFor c) :=
              ((insSort_perm _ _).mem_iff).1 hS
            obtain ⟨entry, hentry, hce⟩ := List.mem_filterMap.1 hS2
            exact candidate_complete c hgG entry.1 entry.2 S hce p.1 d hgetd
              (matchesWhere_all hdm entry hentry)
          · simp only [hgetd]
            rw [if_pos hdm]
  · unfold fullScan
    rw [filter_true_id _ _ (fun d2 => by
      rw [List.isEmpty_iff.1 hw]
      rfl)]
    exact Iff.rfl

/-- C3 witness: equivalence at a concrete indexed equality query. -/
theorem c3_query_equiv_witness :
    good c1Col ∧
    ((⟨"b", [("kind", Value.num 2)]⟩ : Doc) ∈
        query c1Col [("kind", Cond.lit (Value.num 2))] none ↔
      (⟨"b", [("kind", Value.num 2)]⟩ : Doc) ∈
        fullScan c1Col [("kind", Cond.lit (Value.num 2))]) :=
  ⟨by decide, c3_query_equiv c1Col [("kind", Cond.lit (Value.num 2))] (by decide) _⟩

/- ─── C9 infrastructure: the comparator algebra of sortDocuments ─── -/

theorem localeCompare_antisym (a b : String) : localeCompare a b = -(localeCompare b a) := by
  unfold localeCompare
  rcases lt_trichotomy a b with h | h | h
  · rw [if_pos h, if_neg (asymm h), if_pos h]
  · subst h
    simp
  · rw [if_neg (asymm h), if_pos h, if_pos h]
    rfl

theorem localeCompare_le_iff (a b : String) : localeCompare a b ≤ 0 ↔ a ≤ b := by
  unfold localeCompare
  rcases lt_trichotomy a b with h | h | h
  · rw [if_pos h]
    simp [le_of_lt h]
  · subst h
    simp
  · rw [if_neg (asymm h), if_pos h]
    simp [not_le.2 h]

theorem fieldCmp_num {k : String} {a b : Doc} {x y : Int}
    (ha : getField a k = .num x) (hb : getField b k = .num y) :
    fieldCmp k a b = x - y := by
  unfold fieldCmp
  rw [ha, hb]

theorem fieldCmp_str {k : String} {a b : Doc} {x y : String}
    (ha : getField a k = .str x) (hb : getField b k = .str y) :
    fieldCmp k a b = localeCompare x y := by
  unfold fieldCmp
  rw [ha, hb]

theorem fieldCmp_antisym (k : String) (a b : Doc) : fieldCmp k a b = -(fieldCmp k b a) := by
  unfold fieldCmp
  cases ha : getField a k <;> cases hb : getField b k <;>
    first
      | exact (neg_zero).symm
      | exact (neg_sub _ _).symm
      | exact localeCompare_antisym _ _

theorem homog3_rev {k : String} {a b c : Doc} (h : homog3 k a b c) : homog3 k c b a := by
  rcases h with ⟨x, y, z, h1, h2, h3⟩ | ⟨x, y, z, h1, h2, h3⟩
  · exact Or.inl ⟨z, y, x, h3, h2, h1⟩
  · exact Or.inr ⟨z, y, x, h3, h2, h1⟩

theorem homog3_rot {k : String} {a b c : Doc} (h : homog3 k a b c) : homog3 k b c a := by
  rcases h with ⟨x, y, z, h1, h2, h3⟩ | ⟨x, y, z, h1, h2, h3⟩
  · exact Or.inl ⟨y, z, x, h2, h3, h1⟩
  · exact Or.inr ⟨y, z, x, h2, h3, h1⟩

theorem fieldCmp_le_trans {k : String} {a b c : Doc} (h : homog3 k a b c)
    (hab : fieldCmp k a b ≤ 0) (hbc : fieldCmp k b c ≤ 0) : fieldCmp k a c ≤ 0 := by
  rcases h with ⟨x, y, z, h1, h2, h3⟩ | ⟨x, y, z, h1, h2, h3⟩
  · rw [fieldCmp_num h1 h2] at hab
    rw [fieldCmp_num h2 h3] at hbc
    rw [fieldCmp_num h1 h3]
    omega
  · rw [fieldCmp_str h1 h2] at hab
    rw [fieldCmp_str h2 h3] at hbc
    rw [fieldCmp_str h1 h3]
    rw [localeCompare_le_iff] at hab hbc ⊢
    exact le_trans hab hbc

theorem docCompare_antisym (ob : List (String × String)) (a b : Doc) :
    docCompare ob a b = -(docCompare ob b a) := by
  induction ob with
  | nil => rfl
  | cons p rest ih =>
      obtain ⟨k, dir⟩ := p
      show (if fieldCmp k a b ≠ 0 then (if dir = "ASC" then fieldCmp k a b
          else -(fieldCmp k a b)) else docCompare rest a b) =
        -(if fieldCmp k b a ≠ 0 then (if dir = "ASC" then fieldCmp k b a
          else -(fieldCmp k b a)) else docCompare rest b a)
      have hf := fieldCmp_antisym k a b
      by_cases hx : fieldCmp k a b = 0
      · have hba : fieldCmp k b a = 0 := by omega
        rw [if_neg (not_not_intro hx), if_neg (not_not_intro hba), ih]
      · have hba : fieldCmp k b a ≠ 0 := by omega
        rw [if_pos hx, if_pos hba]
        by_cases hd : dir = "ASC"
        · rw [if_pos hd, if_pos hd]
          omega
        · rw [if_neg hd, if_neg hd]
          omega

/-- Hierarchical-comparator transitivity, assuming every listed key is
type-homogeneous across the three documents. -/
theorem docCompare_le_trans (ob : List (String × String)) (a b c : Doc)
    (h : ∀ p ∈ ob, homog3 p.1 a b c)
    (hab : docCompare ob a b ≤ 0) (hbc : docCompare ob b c ≤ 0) :
    docCompare ob a c ≤ 0 := by
  induction ob with
  | nil => exact le_refl 0
  | cons p rest ih =>
      obtain ⟨k, dir⟩ := p
      have hk1 : homog3 k a b c := h (k, dir) (List.mem_cons_self _ _)
      have hk2 : homog3 k b c a := homog3_rot hk1
      have hk3 : homog3 k c a b := homog3_rot hk2
      have hk4 : homog3 k c b a := homog3_rev hk1
      have hk6 : homog3 k b a c := homog3_rot hk4
      have hk5 : homog3 k a c b := homog3_rot hk6
      have hrest : ∀ q ∈ rest, homog3 q.1 a b c :=
        fun q hq => h q (List.mem_cons_of_mem _ hq)
      have eBA : fieldCmp k b a = -(fieldCmp k a b) := by
        have := fieldCmp_antisym k a b
        omega
      have eCB : fieldCmp k c b = -(fieldCmp k b c) := by
        have := fieldCmp_antisym k b c
        omega
      have eCA : fieldCmp k c a = -(fieldCmp k a c) := by
        have := fieldCmp_antisym k a c
        omega
      have t1 : fieldCmp k a b ≤ 0 → fieldCmp k b c ≤ 0 → fieldCmp k a c ≤ 0 :=
        fun h1 h2 => fieldCmp_le_trans hk1 h1 h2
      have t2 : 0 ≤ fieldCmp k b c → 0 ≤ fieldCmp k a b → 0 ≤ fieldCmp k a c := by
        intro h1 h2
        have := fieldCmp_le_trans hk4 (by omega) (by omega)
        omega
      have t3 : 0 ≤ fieldCmp k a c → fieldCmp k a b ≤ 0 → 0 ≤ fieldCmp k b c := by
        intro h1 h2
        have := fieldCmp_le_trans hk3 (by omega) h2
        omega
      have t4 : fieldCmp k b c ≤ 0 → 0 ≤ fieldCmp k a c → 0 ≤ fieldCmp k a b := by
        intro h1 h2
        have := fieldCmp_le_trans hk2 h1 (by omega)
        omega
      have t5 : fieldCmp k a c ≤ 0 → 0 ≤ fieldCmp k b c → fieldCmp k a b ≤ 0 := by
        intro h1 h2
        have := fieldCmp_le_trans hk5 h1 (by omega)
        omega
      have t6 : 0 ≤ fieldCmp k a b → fieldCmp k a c ≤ 0 → fieldCmp k b c ≤ 0 := by
        intro h1 h2
        have := fieldCmp_le_trans hk6 (by omega) h2
        omega
      have hab2 : (if fieldCmp k a b ≠ 0 then (if dir = "ASC" then fieldCmp k a b
          else -(fieldCmp k a b)) else docCompare rest a b) ≤ 0 := hab
      have hbc2 : (if fieldCmp k b c ≠ 0 then (if dir = "ASC" then fieldCmp k b c
          else -(fieldCmp k b c)) else docCompare rest b c) ≤ 0 := hbc
      show (if fieldCmp k a c ≠ 0 then (if dir = "ASC" then fieldCmp k a c
          else -(fieldCmp k a c)) else docCompare rest a c) ≤ 0
      by_cases hA : fieldCmp k a b = 0
      · by_cases hB : fieldCmp k b c = 0
        · have hC : fieldCmp k a c = 0 := by
            have h1 : fieldCmp k a c ≤ 0 := t1 (by omega) (by omega)
            have h2 : 0 ≤ fieldCmp k a c := t2 (by omega) (by omega)
            omega
          rw [if_neg (not_not_intro hA)] at hab2
          rw [if_neg (not_not_intro hB)] at hbc2
          rw [if_neg (not_not_intro hC)]
          exact ih hrest hab2 hbc2
        · rw [if_neg (not_not_intro hA)] at hab2
          rw [if_pos hB] at hbc2
          by_cases hd : dir = "ASC"
          · rw [if_pos hd] at hbc2
            have hC : fieldCmp k a c ≤ 0 := t1 (by omega) (by omega)
            have hCne : fieldCmp k a c ≠ 0 := by
              intro h0
              have := t3 (by omega) (by omega)
              omega
            rw [if_pos hCne, if_pos hd]
            exact hC
          · rw [if_neg hd] at hbc2
            have hC : 0 ≤ fieldCmp k a c := t2 (by omega) (by omega)
            have hCne : fieldCmp k a c ≠ 0 := by
              intro h0
              have := t6 (by omega) (by omega)
              omega
            rw [if_pos hCne, if_neg hd]
            omega
      · rw [if_pos hA] at hab2
        by_cases hB : fieldCmp k b c = 0
        · rw [if_neg (not_not_intro hB)] at hbc2
          by_cases hd : dir = "ASC"
          · rw [if_pos hd] at hab2
            have hC : fieldCmp k a c ≤ 0 := t1 (by omega) (by omega)
            have hCne : fieldCmp k a c ≠ 0 := by
              intro h0
              have := t4 (by omega) (by omega)
              omega
            rw [if_pos hCne, if_pos hd]
            exact hC
          · rw [if_neg hd] at hab2
            have hC : 0 ≤ fieldCmp k a c := t2 (by omega) (by omega)
            have hCne : fieldCmp k a c ≠ 0 := by
              intro h0
              have := t5 (by omega) (by omega)
              omega
            rw [if_pos hCne, if_neg hd]
            omega
        · rw [if_pos hB] at hbc2
          by_cases hd : dir = "ASC"
          · rw [if_pos hd] at hab2 hbc2
            have hC : fieldCmp k a c ≤ 0 := t1 (by omega) (by omega)
            have hCne : fieldCmp k a c ≠ 0 := by
              intro h0
              have := t3 (by omega) (by omega)
              omega
            rw [if_pos hCne, if_pos hd]
            exact hC
          · rw [if_neg hd] at hab2 hbc2
            have hC : 0 ≤ fieldCmp k a c := t2 (by omega) (by omega)
            have hCne : fieldCmp k a c ≠ 0 := by
              intro h0
              have := t6 (by omega) (by omega)
              omega
            rw [if_pos hCne, if_neg hd]
            omega

/- ─── C9 infrastructure: insertion-sort sortedness and stability ─── -/

theorem insertOrd_pairwise {α : Type} (le : α → α → Bool) (u : List α)
    (htot : ∀ a ∈ u, ∀ b ∈ u, le a b = true ∨ le b a = true)
    (htrans : ∀ a ∈ u, ∀ b ∈ u, ∀ z ∈ u, le a b = true → le b z = true → le a z = true)
    (x : α) (hxu : x ∈ u) (s : List α) (hsu : ∀ y ∈ s, y ∈ u)
    (hs : List.Pairwise (fun a b => le a b = true) s) :
    List.Pairwise (fun a b => le a b = true) (insertOrd le x s) := by
  induction s with
  | nil => simp [insertOrd]
  | cons y ys ih =>
      have hyu : y ∈ u := hsu y (List.mem_cons_self _ _)
      have hysu : ∀ z ∈ ys, z ∈ u := fun z hz => hsu z (List.mem_cons_of_mem _ hz)
      obtain ⟨hy_ys, hys⟩ := List.pairwise_cons.1 hs
      by_cases hxy : le x y = true
      · rw [insertOrd, if_pos hxy]
        refine List.Pairwise.cons ?_ hs
        intro z hz
        rcases List.mem_cons.1 hz with rfl | hz2
        · exact hxy
        · exact htrans x hxu y hyu z (hysu z hz2) hxy (hy_ys z hz2)
      · rw [insertOrd, if_neg hxy]
        refine List.Pairwise.cons ?_ (ih hysu hys)
        intro z hz
        have hzmem : z = x ∨ z ∈ ys :=
          List.mem_cons.1 ((insertOrd_perm le x ys).mem_iff.1 hz)
        rcases hzmem with rfl | hz2
        · rcases htot _ hxu _ hyu with h | h
          · exact absurd h hxy
          · exact h
        · exact hy_ys z hz2

theorem insSort_pairwise {α : Type} (le : α → α → Bool) (u l : List α)
    (hlu : ∀ y ∈ l, y ∈ u)
    (htot : ∀ a ∈ u, ∀ b ∈ u, le a b = true ∨ le b a = true)
    (htrans : ∀ a ∈ u, ∀ b ∈ u, ∀ z ∈ u, le a b = true → le b z = true → le a z = true) :
    List.Pairwise (fun a b => le a b = true) (insSort le l) := by
  induction l with
  | nil => simp [insSort]
  | cons x xs ih =>
      exact insertOrd_pairwise le u htot htrans x (hlu x (List.mem_cons_self _ _))
        (insSort le xs)
        (fun y hy =>
          hlu y (List.mem_cons_of_mem _ ((insSort_perm le xs).mem_iff.1 hy)))
        (ih (fun y hy => hlu y (List.mem_cons_of_mem _ hy)))

theorem insertOrd_stable {α : Type} (le : α → α → Bool) (T : α → α → Prop)
    (x : α) (s : List α) (hs : List.Pairwise T s)
    (hTx : ∀ y ∈ s, T x y)
    (hyx : ∀ y ∈ s, le x y = false → T y x) :
    List.Pairwise T (insertOrd le x s) := by
  induction s with
  | nil => simp [insertOrd]
  | cons y ys ih =>
      obtain ⟨hy_ys, hys⟩ := List.pairwise_cons.1 hs
      by_cases hxy : le x y = true
      · rw [insertOrd, if_pos hxy]
        exact List.Pairwise.cons (fun z hz => hTx z hz) hs
      · rw [insertOrd, if_neg hxy]
        refine List.Pairwise.cons ?_
          (ih hys (fun z hz => hTx z (List.mem_cons_of_mem _ hz))
            (fun z hz h => hyx z (List.mem_cons_of_mem _ hz) h))
        intro z hz
        rcases List.mem_cons.1 ((insertOrd_perm le x ys).mem_iff.1 hz) with rfl | hz2
        · exact hyx y (List.mem_cons_self _ _) (Bool.eq_false_iff.2 hxy)
        · exact hy_ys z hz2

theorem insSort_stable {α : Type} (le : α → α → Bool) (T : α → α → Prop) (l : List α)
    (hl : List.Pairwise T l) (hvac : ∀ x y, le x y = false → T y x) :
    List.Pairwise T (insSort le l) := by
  induction l with
  | nil => simp [insSort]
  | cons x xs ih =>
      obtain ⟨hx_xs, hxs⟩ := List.pairwise_cons.1 hl
      exact insertOrd_stable le T x (insSort le xs) (ih hxs)
        (fun y hy => hx_xs y ((insSort_perm le xs).mem_iff.1 hy))
        (fun y _ h => hvac x y h)

theorem mem_enumFrom_le {α : Type} (n : Nat) (l : List α) :
    ∀ p ∈ List.enumFrom n l, n ≤ p.1 := by
  induction l generalizing n with
  | nil =>
      intro p hp
      cases hp
  | cons x xs ih =>
      intro p hp
      rcases List.mem_cons.1 hp with rfl | hp2
      · exact le_refl n
      · exact Nat.le_of_succ_le (ih (n + 1) p hp2)

theorem enumFrom_pairwise_lt {α : Type} (n : Nat) (l : List α) :
    List.Pairwise (fun a b => a.1 < b.1) (List.enumFrom n l) := by
  induction l generalizing n with
  | nil => exact List.Pairwise.nil
  | cons x xs ih =>
      exact List.Pairwise.cons
        (fun p hp => Nat.lt_of_succ_le (mem_enumFrom_le (n + 1) xs p hp)) (ih (n + 1))

theorem enumFrom_map_snd {α : Type} (n : Nat) (l : List α) :
    (List.enumFrom n l).map Prod.snd = l := by
  induction l generalizing n with
  | nil => rfl
  | cons x xs ih => simp [List.enumFrom, ih]

theorem insertOrd_map_snd (ob : List (String × String)) (x : Nat × Doc)
    (s : List (Nat × Doc)) :
    (insertOrd (fun a b : Nat × Doc => docCompare ob a.2 b.2 ≤ 0) x s).map Prod.snd =
      insertOrd (fun a b : Doc => docCompare ob a b ≤ 0) x.2 (s.map Prod.snd) := by
  induction s with
  | nil => rfl
  | cons y ys ih =>
      cases h : decide (docCompare ob x.2 y.2 ≤ 0) <;>
        simp [insertOrd, h, ih]

theorem insSort_map_snd (ob : List (String × String)) (l : List (Nat × Doc)) :
    (insSort (fun a b : Nat × Doc => docCompare ob a.2 b.2 ≤ 0) l).map Prod.snd =
      insSort (fun a b : Doc => docCompare ob a b ≤ 0) (l.map Prod.snd) := by
  induction l with
  | nil => rfl
  | cons x xs ih =>
      show (insertOrd _ x (insSort _ xs)).map Prod.snd = insertOrd _ x.2 (insSort _ _)
      rw [insertOrd_map_snd, ih]

theorem insertOrd_always (le : Doc → Doc → Bool) (x : Doc) (s : List Doc)
    (h : ∀ a b, le a b = true) : insertOrd le x s = x :: s := by
  cases s with
  | nil => rfl
  | cons y ys => rw [insertOrd, if_pos (h x y)]

theorem insSort_always (le : Doc → Doc → Bool) (l : List Doc)
    (h : ∀ a b, le a b = true) : insSort le l = l := by
  induction l with
  | nil => rfl
  | cons x xs ih => rw [insSort, ih, insertOrd_always le x xs h]

theorem pairwise_of_all {α : Type} (R : α → α → Prop) (h : ∀ a b, R a b) :
    ∀ l : List α, l.Pairwise R := by
  intro l
  induction l with
  | nil => exact List.Pairwise.nil
  | cons x xs ih => exact List.Pairwise.cons (fun b _ => h x b) ih

/-- Bridge: `sortDocuments` equals the index-tagged stable insertion sort
with the tags erased, for every `orderBy` (including the empty one). -/
theorem sortDocuments_eq_enum_sort (docs : List Doc) (ob : List (String × String)) :
    sortDocuments docs ob =
      (insSort (fun a b : Nat × Doc => docCompare ob a.2 b.2 ≤ 0) docs.enum).map
        Prod.snd := by
  rw [insSort_map_snd]
  show sortDocuments docs ob =
    insSort (fun a b : Doc => docCompare ob a b ≤ 0) ((List.enumFrom 0 docs).map Prod.snd)
  rw [enumFrom_map_snd]
  unfold sortDocuments
  cases hob : ob.isEmpty
  · rw [if_neg (by simp [hob])]
  · rw [if_pos (by simp [hob])]
    have hob2 : ob = [] := List.isEmpty_iff.1 hob
    refine (insSort_always _ docs ?_).symm
    intro a b
    simp [hob2, docCompare]

theorem exists_of_isNumV {v : Value} (h : isNumV v = true) : ∃ x : Int, v = .num x := by
  cases v <;> simp [isNumV] at h ⊢

theorem exists_of_isStrV {v : Value} (h : isStrV v = true) : ∃ x : String, v = .str x := by
  cases v <;> simp [isStrV] at h ⊢

/-- C9 counterexample: with mixed value types under the sort key the
comparator is not transitive, and `sortDocuments` returns a sequence that
is not ordered by the first field: here the numeric documents 5 and 1 end
up in the order 5 before 1 because the string document between them ties
with both. -/
theorem c9_counterexample :
    ¬ List.Pairwise (fun a b => docCompare [("f", "ASC")] a b ≤ 0)
      (sortDocuments
        [⟨"x5", [("f", Value.num 5)]⟩, ⟨"xx", [("f", Value.str "x")]⟩,
          ⟨"x1", [("f", Value.num 1)]⟩]
        [("f", "ASC")]) := by
  decide

/-- C9 (amended): when every sort key is type-homogeneous across the input
(all numbers or all strings), `sortDocuments` returns a permutation of the
input that is sorted by the hierarchical comparator; and unconditionally the
result is the stable insertion sort of the index-tagged input with the tags
erased, where any two documents comparing equal on every listed field keep
their original relative order. -/
theorem c9_sort_stable_hierarchical (docs : List Doc) (ob : List (String × String))
    (hhom : ∀ p ∈ ob, (∀ d ∈ docs, isNumV (getField d p.1) = true) ∨
      (∀ d ∈ docs, isStrV (getField d p.1) = true)) :
    (sortDocuments docs ob).Perm docs ∧
    List.Pairwise (fun a b => docCompare ob a b ≤ 0) (sortDocuments docs ob) ∧
    sortDocuments docs ob =
      (insSort (fun a b : Nat × Doc => docCompare ob a.2 b.2 ≤ 0) docs.enum).map
        Prod.snd ∧
    List.Pairwise (fun a b : Nat × Doc => docCompare ob a.2 b.2 = 0 → a.1 < b.1)
      (insSort (fun a b : Nat × Doc => docCompare ob a.2 b.2 ≤ 0) docs.enum) := by
  refine ⟨?_, ?_, sortDocuments_eq_enum_sort docs ob, ?_⟩
  · unfold sortDocuments
    cases hob : ob.isEmpty
    · rw [if_neg (by simp [hob])]
      exact insSort_perm _ docs
    · rw [if_pos (by simp [hob])]
  · unfold sortDocuments
    cases hob : ob.isEmpty
    · rw [if_neg (by simp [hob])]
      have htot : ∀ a ∈ docs, ∀ b ∈ docs,
          (fun a b : Doc => decide (docCompare ob a b ≤ 0)) a b = true ∨
          (fun a b : Doc => decide (docCompare ob a b ≤ 0)) b a = true := by
        intro a _ b _
        have := docCompare_antisym ob a b
        by_cases h : docCompare ob a b ≤ 0
        · exact Or.inl (decide_eq_true h)
        · exact Or.inr (decide_eq_true (by omega))
      have htrans : ∀ a ∈ docs, ∀ b ∈ docs, ∀ e ∈ docs,
          (fun a b : Doc => decide (docCompare ob a b ≤ 0)) a b = true →
          (fun a b : Doc => decide (docCompare ob a b ≤ 0)) b e = true →
          (fun a b : Doc => decide (docCompare ob a b ≤ 0)) a e = true := by
        intro a ha b hb e he h1 h2
        have h1b : docCompare ob a b ≤ 0 := of_decide_eq_true h1
        have h2b : docCompare ob b e ≤ 0 := of_decide_eq_true h2
        refine decide_eq_true (docCompare_le_trans ob a b e ?_ h1b h2b)
        intro p hp
        rcases hhom p hp with hnum | hstr
        · obtain ⟨x, hx⟩ := exists_of_isNumV (hnum a ha)
          obtain ⟨y, hy⟩ := exists_of_isNumV (hnum b hb)
          obtain ⟨z, hz⟩ := exists_of_isNumV (hnum e he)
          exact Or.inl ⟨x, y, z, hx, hy, hz⟩
        · obtain ⟨x, hx⟩ := exists_of_isStrV (hstr a ha)
          obtain ⟨y, hy⟩ := exists_of_isStrV (hstr b hb)
          obtain ⟨z, hz⟩ := exists_of_isStrV (hstr e he)
          exact Or.inr ⟨x, y, z, hx, hy, hz⟩
      have hP := insSort_pairwise (fun a b : Doc => decide (docCompare ob a b ≤ 0))
        docs docs (fun y hy => hy) htot htrans
      exact hP.imp (fun h => of_decide_eq_true h)
    · rw [if_pos (by simp [hob])]
      have hob2 : ob = [] := List.isEmpty_iff.1 hob
      subst hob2
      exact pairwise_of_all _ (fun a b => by simp [docCompare]) docs
  · refine insSort_stable _ _ _ ?_ ?_
    · refine List.Pairwise.imp ?_ (enumFrom_pairwise_lt 0 docs)
      intro a b h _
      exact h
    · intro x y hxy heq
      have hlt : ¬ (docCompare ob x.2 y.2 ≤ 0) := of_decide_eq_false hxy
      have hanti := docCompare_antisym ob y.2 x.2
      exact absurd (show docCompare ob x.2 y.2 ≤ 0 by omega) hlt

theorem c9_sort_stable_hierarchical_witness :
    (∀ p ∈ ([("f", "ASC")] : List (String × String)),
        (∀ d ∈ c9docs, isNumV (getField d p.1) = true) ∨
        (∀ d ∈ c9docs, isStrV (getField d p.1) = true)) ∧
    ((sortDocuments c9docs [("f", "ASC")]).Perm c9docs ∧
      List.Pairwise (fun a b => docCompare [("f", "ASC")] a b ≤ 0)
        (sortDocuments c9docs [("f", "ASC")]) ∧
      sortDocuments c9docs [("f", "ASC")] =
        (insSort (fun a b : Nat × Doc => docCompare [("f", "ASC")] a.2 b.2 ≤ 0)
          c9docs.enum).map Prod.snd ∧
      List.Pairwise
        (fun a b : Nat × Doc => docCompare [("f", "ASC")] a.2 b.2 = 0 → a.1 < b.1)
        (insSort (fun a b : Nat × Doc => docCompare [("f", "ASC")] a.2 b.2 ≤ 0)
          c9docs.enum)) :=
  ⟨by decide, c9_sort_stable_hierarchical c9docs [("f", "ASC")] (by decide)⟩

end GraphDB
